import Mathlib

/-!
A verification development for the geecache library: a shallow embedding of
its LRU cache (`lru/lru.go`), consistent-hash ring
(`consistenthash/consistenthash.go`), group orchestrator (`geecache.go`,
`lockcache.go`, `byteview.go`) and single-flight primitive, together with
theorems settling the specified properties.

Conventions of the embedding:
* Go `int64` fields (`maxBytes`, `nowBytes`, `cacheBytes`) are modelled as
  `Int`; `uint32` hash values converted by Go's `int(...)` are non-negative
  and are modelled as `Nat`.
* A Go map is modelled as a function to `Option`; a `nil`-able pointer or
  interface as an `Option`.
* Stateful methods become functions returning the updated state.
-/

set_option maxHeartbeats 1600000
set_option linter.unusedSectionVars false

namespace GeeCache

/-! ## LRU engine (`geecache/lru/lru.go`) -/

/-- Go interface `lru.Value`: a cache value reports its byte size via `Len`. -/
class Value (V : Type) where
  Len : V → Nat

export Value (Len)

/-- `lru.nodeData`: the payload of a doubly-linked-list node, `{key, value}`.
The extra field `touch` is ghost instrumentation — a logical timestamp of the
last access, written by the operations but never read by them — used only to
state recency properties. -/
structure nodeData (V : Type) where
  key : String
  value : V
  touch : Nat
deriving DecidableEq

/-- `lru.Cache`, holding `{maxBytes, nowBytes, doubleLinkList, dictionary,
OnEvicted}`.  The list is kept front (head) to back (last); the source's
`dictionary` maps a key to the unique list element holding it and is kept
exactly in sync with the list, so the embedding realises dictionary lookup
as a search of the list for the key.  `OnEvicted` is an external observer
that by contract must not re-enter the cache, so it has no effect on cache
state and is not carried.  The ghost field `clock` supplies fresh `touch`
timestamps. -/
structure Cache (V : Type) where
  maxBytes : Int
  nowBytes : Int
  doubleLinkList : List (nodeData V)
  clock : Nat
deriving DecidableEq

variable {V : Type} [Value V]

/-- `lru.New`: a fresh cache with the given byte bound. -/
def Cache.New (maxBytes : Int) : Cache V :=
  { maxBytes := maxBytes, nowBytes := 0, doubleLinkList := [], clock := 0 }

/-- The byte contribution of one entry: `len(key) + value.Len()`. -/
def nodeSize (e : nodeData V) : Int :=
  (e.key.length : Int) + (Len e.value : Int)

/-- Total byte contribution of a list of entries. -/
def sumBytes (l : List (nodeData V)) : Int :=
  (l.map nodeSize).sum

/-- `lru.Cache.RemoveOldest`: unlink the back entry (if any), delete its
dictionary mapping, and subtract its size from `nowBytes`. -/
def Cache.RemoveOldest (c : Cache V) : Cache V :=
  match c.doubleLinkList.getLast? with
  | none => c
  | some kv =>
      { c with
        doubleLinkList := c.doubleLinkList.dropLast,
        nowBytes := c.nowBytes - (kv.key.length : Int) - (Len kv.value : Int) }

/-- The guard of the eviction loop in `lru.Cache.Add`:
`c.maxBytes != 0 && c.maxBytes < c.nowBytes`. -/
def Cache.overLimit (c : Cache V) : Prop :=
  c.maxBytes ≠ 0 ∧ c.maxBytes < c.nowBytes

instance (c : Cache V) : Decidable c.overLimit :=
  inferInstanceAs (Decidable (_ ∧ _))

/-- The eviction loop `for maxBytes != 0 && maxBytes < nowBytes
{ RemoveOldest }` of `lru.Cache.Add`, run with explicit fuel.  `Add` supplies
fuel equal to the list length: every productive iteration removes one
element, and once the list is empty `RemoveOldest` is the identity, so the
Go loop from that point either exits or spins without changing state;
the fuelled loop returns that fixed state. -/
def Cache.evictLoop : Nat → Cache V → Cache V
  | 0, c => c
  | fuel + 1, c => if c.overLimit then Cache.evictLoop fuel c.RemoveOldest else c

/-- The insertion phase of `lru.Cache.Add` (everything before the eviction
loop): on a hit, move the node to the front and replace its value, adjusting
`nowBytes` by the size difference; on a miss, push a fresh node to the front
and add its full size. -/
def Cache.AddEntry (c : Cache V) (key : String) (value : V) : Cache V :=
  match c.doubleLinkList.find? (fun e => e.key == key) with
  | some kv =>
      { c with
        doubleLinkList :=
          { key := kv.key, value := value, touch := c.clock } ::
            c.doubleLinkList.eraseP (fun e => e.key == key),
        nowBytes := c.nowBytes + (Len value : Int) - (Len kv.value : Int),
        clock := c.clock + 1 }
  | none =>
      { c with
        doubleLinkList := { key := key, value := value, touch := c.clock } :: c.doubleLinkList,
        nowBytes := c.nowBytes + (key.length : Int) + (Len value : Int),
        clock := c.clock + 1 }

/-- `lru.Cache.Add`: insert or update, then run the eviction loop. -/
def Cache.Add (c : Cache V) (key : String) (value : V) : Cache V :=
  let c1 := c.AddEntry key value
  Cache.evictLoop c1.doubleLinkList.length c1

/-- `lru.Cache.Get`: on a hit, move the node to the front and return its
value together with the mutated cache; on a miss, leave the cache unchanged. -/
def Cache.Get (c : Cache V) (key : String) : Cache V × Option V :=
  match c.doubleLinkList.find? (fun e => e.key == key) with
  | some kv =>
      ({ c with
          doubleLinkList :=
            { kv with touch := c.clock } :: c.doubleLinkList.eraseP (fun e => e.key == key),
          clock := c.clock + 1 },
        some kv.value)
  | none => (c, none)

/-- `lru.Cache.Len`: the number of live entries. -/
def Cache.Len (c : Cache V) : Nat :=
  c.doubleLinkList.length

/-- One cache operation, for stating properties of operation sequences. -/
inductive Op (V : Type) where
  | add (key : String) (value : V)
  | get (key : String)
  | removeOldest
deriving DecidableEq

/-- Apply one operation to a cache. -/
def Cache.applyOp (c : Cache V) : Op V → Cache V
  | .add k v => c.Add k v
  | .get k => (c.Get k).1
  | .removeOldest => c.RemoveOldest

/-- Run a sequence of operations left to right. -/
def Cache.runOps (c : Cache V) (ops : List (Op V)) : Cache V :=
  ops.foldl Cache.applyOp c

/-- The byte-accounting invariant: `nowBytes` equals the summed sizes of the
live entries. -/
def Cache.WFBytes (c : Cache V) : Prop :=
  c.nowBytes = sumBytes c.doubleLinkList

/-! ## Byte view (`geecache/byteview.go`) -/

/-- `geecache.ByteView`: an immutable byte sequence.  Bytes are modelled as
natural numbers; aliasing and defensive copying are not observable in the
embedding, where lists are values. -/
structure ByteView where
  b : List Nat
deriving DecidableEq

/-- `geecache.cloneBytes`: allocate a copy of a byte slice.  On list values
the copy is the list itself. -/
def cloneBytes (b : List Nat) : List Nat := b

/-- `ByteView.Len`: the view's length, implementing `lru.Value`. -/
instance : Value ByteView where
  Len v := v.b.length

/-- `ByteView.ByteSlice`: a copy of the bytes. -/
def ByteView.ByteSlice (v : ByteView) : List Nat := cloneBytes v.b

/-! ## Cache shell (`geecache/lockcache.go`)

The mutex serialises access and is not part of the sequential state. -/

/-- `geecache.LockCache`: a lazily initialised LRU behind a mutex. -/
structure LockCache where
  lru : Option (Cache ByteView)
  cacheBytes : Int
deriving DecidableEq

/-- `LockCache.add`: instantiate the LRU on first use, then `lru.Add`. -/
def LockCache.add (c : LockCache) (key : String) (value : ByteView) : LockCache :=
  match c.lru with
  | none => { c with lru := some ((Cache.New c.cacheBytes).Add key value) }
  | some l => { c with lru := some (l.Add key value) }

/-- `LockCache.get`: `none` state means not found; otherwise `lru.Get`
(which mutates recency on a hit, so the updated shell is returned too). -/
def LockCache.get (c : LockCache) (key : String) : LockCache × Option ByteView :=
  match c.lru with
  | none => (c, none)
  | some l =>
      match l.Get key with
      | (l2, some v) => ({ c with lru := some l2 }, some v)
      | (l2, none) => ({ c with lru := some l2 }, none)

/-! ## Group orchestrator (`geecache/geecache.go`, `geecache/peers.go`)

Functions returning Go's `(value, err)` pairs are modelled as products with
`Option String` as the error component (`none` = nil error). -/

/-- `geecachepb.Request`: the peer RPC request `{group, key}`. -/
structure Request where
  group : String
  key : String

/-- `geecache.PeerGetter`: fills a response `{value: bytes}` or errors.
Modelled as the returned `(res.Value, error)` pair. -/
def PeerGetter : Type := Request → List Nat × Option String

/-- `geecache.PeerPicker`: picks the owning remote peer for a key;
`(peer, ok)` is modelled as `Option PeerGetter`. -/
def PeerPicker : Type := String → Option PeerGetter

/-- `geecache.Group`: name, loader callback, cache shell, optional peer
picker.  The single-flight `loader` field has no sequential state between
calls (its map is empty whenever no call is in flight), so it is not
carried; `Group.load` below inlines the sole-caller behaviour of `Do`,
which is to run the work function once. -/
structure Group where
  name : String
  callback : String → List Nat × Option String
  lockCache : LockCache
  peers : Option PeerPicker

/-- `Group.populateCache`: add the loaded value to the cache shell. -/
def Group.populateCache (g : Group) (key : String) (value : ByteView) : Group :=
  { g with lockCache := g.lockCache.add key value }

/-- `Group.getLocally`: invoke the loader callback; on error return the
zero view and the error without touching the cache; on success wrap the
(cloned) bytes and populate the cache shell. -/
def Group.getLocally (g : Group) (key : String) : Group × ByteView × Option String :=
  match g.callback key with
  | (_, some e) => (g, ⟨[]⟩, some e)
  | (bytes, none) =>
      let value : ByteView := ⟨cloneBytes bytes⟩
      (g.populateCache key value, value, none)

/-- `Group.getFromPeer`: RPC to the owning peer; on success wrap the
response bytes (uncloned, as in the source), on error return the zero view
and the error. -/
def Group.getFromPeer (g : Group) (peer : PeerGetter) (key : String) : ByteView × Option String :=
  match peer { group := g.name, key := key } with
  | (bytes, none) => (⟨bytes⟩, none)
  | (_, some e) => (⟨[]⟩, some e)

/-- `Group.load`: inside the single-flight `Do` (run once for this sole
caller, per the single-flight contract), try the picked remote peer first;
on peer absence or failure fall back to `getLocally`. -/
def Group.load (g : Group) (key : String) : Group × ByteView × Option String :=
  match g.peers with
  | some picker =>
      match picker key with
      | some peer =>
          match g.getFromPeer peer key with
          | (value, none) => (g, value, none)
          | (_, some _) => g.getLocally key
      | none => g.getLocally key
  | none => g.getLocally key

/-- `Group.Get`: reject the empty key; consult the cache shell; on a hit
return the cached view; on a miss delegate to `load`. -/
def Group.Get (g : Group) (key : String) : Group × ByteView × Option String :=
  if key = "" then (g, ⟨[]⟩, some "key is required")
  else
    match g.lockCache.get key with
    | (shell2, some v) => ({ g with lockCache := shell2 }, v, none)
    | (shell2, none) => Group.load { g with lockCache := shell2 } key

/-- A concrete group whose loader always fails, used as a witness input. -/
def exampleErrGroup : Group :=
  { name := "g"
    callback := fun _ => ([], some "boom")
    lockCache := { lru := none, cacheBytes := 100 }
    peers := none }

/-- A concrete peer getter that returns fixed bytes, used as a witness
input. -/
def examplePeer : PeerGetter := fun _ => ([7, 8], none)

/-- A concrete peer picker routing every key to `examplePeer`. -/
def examplePicker : PeerPicker := fun _ => some examplePeer

/-- A concrete group with a registered peer picker, used as a witness
input. -/
def examplePeerGroup : Group :=
  { name := "g"
    callback := fun key => ([key.length], none)
    lockCache := { lru := none, cacheBytes := 100 }
    peers := some examplePicker }

/-! ## Consistent-hash ring (`geecache/consistenthash/consistenthash.go`)

Hash values are produced by `int(h.hashfunc(...))` from a `uint32`, hence
lie in `[0, 2^32)`; they are modelled as `Nat`.  The hash function consumes
`[]byte(s)` for a string `s`; bytes and strings being in bijection here, it
is modelled on `String`. -/

/-- `consistenthash.HashFunc` (specialised to the string inputs the ring
feeds it). -/
def HashFunc : Type := String → Nat

/-- The loop of Go's `sort.Search(n, f)`, with explicit fuel.  The loop
narrows `[i, j)` by halving, so `n` steps of fuel (supplied by `goSearch`)
always suffice: each iteration shrinks `j - i` by at least one. -/
def goSearchAux (f : Nat → Bool) : Nat → Nat → Nat → Nat
  | 0, i, _ => i
  | fuel + 1, i, j =>
      if i < j then
        if f ((i + j) / 2) then goSearchAux f fuel i ((i + j) / 2)
        else goSearchAux f fuel ((i + j) / 2 + 1) j
      else i

/-- Go's `sort.Search(n, f)`: the smallest index in `[0, n]` at which `f`
becomes true, assuming `f` is monotone (false then true). -/
def goSearch (n : Nat) (f : Nat → Bool) : Nat :=
  goSearchAux f n 0 n

/-- `consistenthash.ConsistHash`: hash function, replica count, the sorted
array of virtual points, and the virtual-point → node-name map (a Go map,
modelled as a function to `Option String`). -/
@[ext]
structure ConsistHash where
  hashfunc : HashFunc
  replicas : Nat
  keys : List Nat
  hashMap : Nat → Option String

/-- `consistenthash.New` (with a non-nil hash function supplied). -/
def ConsistHash.New (replicas : Nat) (hashfunc : HashFunc) : ConsistHash :=
  { replicas := replicas, hashfunc := hashfunc, keys := [], hashMap := fun _ => none }

/-- The virtual-point hashes of one real node name:
`hash(strconv.Itoa(i) + key)` for `i ∈ [0, replicas)`. -/
def ConsistHash.virtualHashes (h : ConsistHash) (key : String) : List Nat :=
  (List.range h.replicas).map (fun i => h.hashfunc (toString i ++ key))

/-- The body of `ConsistHash.Add` for a single name: append the virtual
points and record the mappings (the array is re-sorted afterwards by
`Add`). -/
def ConsistHash.addOne (h : ConsistHash) (key : String) : ConsistHash :=
  { h with
    keys := h.keys ++ h.virtualHashes key,
    hashMap :=
      (h.virtualHashes key).foldl
        (fun m hv => fun v => if v = hv then some key else m v) h.hashMap }

/-- `consistenthash.Add(keys...)`: process each name, then sort the array
(`sort.Ints`; any correct sort yields the unique sorted permutation, here
realised by insertion sort). -/
def ConsistHash.Add (h : ConsistHash) (names : List String) : ConsistHash :=
  let h2 := names.foldl ConsistHash.addOne h
  { h2 with keys := h2.keys.insertionSort (· ≤ ·) }

/-- `consistenthash.ConsistHash.Get`: empty ring returns the empty name;
otherwise binary-search for the first point `≥ hash(key)`, wrap with `%`,
and resolve through the map (a missing map key yields Go's zero value `""`).
`getD _ 0` only ever reads in-bounds indices here. -/
def ConsistHash.Get (h : ConsistHash) (key : String) : String :=
  if h.keys.length = 0 then ""
  else
    let hashvalue := h.hashfunc key
    let idx := goSearch h.keys.length (fun i => hashvalue ≤ h.keys.getD i 0)
    (h.hashMap (h.keys.getD (idx % h.keys.length) 0)).getD ""

/-- The ring lookup as worded by the spec: the least index with
`array[idx] ≥ h` (found by a linear scan, `length` when none), wrapped to
`0` when `idx` equals the length. -/
def ConsistHash.specGet (h : ConsistHash) (key : String) : String :=
  if h.keys.length = 0 then ""
  else
    let hashvalue := h.hashfunc key
    let idx := h.keys.findIdx (fun x => hashvalue ≤ x)
    let idx2 := if idx = h.keys.length then 0 else idx
    (h.hashMap (h.keys.getD idx2 0)).getD ""

/-- One iteration of `consistenthash.Remove`: locate the virtual hash with
`sort.SearchInts` and delete that index by
`append(h.keys[:idx], h.keys[idx+1:]...)`, then delete the map entry.  The
re-slice `h.keys[idx+1:]` is in bounds only when `idx + 1 ≤ len(keys)`;
otherwise the Go code panics, modelled as `none`. -/
def ConsistHash.removeStep (h : ConsistHash) (hashvalue : Nat) : Option ConsistHash :=
  if goSearch h.keys.length (fun i => hashvalue ≤ h.keys.getD i 0) + 1 ≤ h.keys.length then
    some
      { h with
        keys :=
          h.keys.take (goSearch h.keys.length (fun i => hashvalue ≤ h.keys.getD i 0)) ++
            h.keys.drop (goSearch h.keys.length (fun i => hashvalue ≤ h.keys.getD i 0) + 1),
        hashMap := fun v => if v = hashvalue then none else h.hashMap v }
  else none

/-- `consistenthash.Remove(key)`: delete each virtual point of the name
from the array and the map, `none` when some iteration panics. -/
def ConsistHash.Remove (h : ConsistHash) (key : String) : Option ConsistHash :=
  (List.range h.replicas).foldlM
    (fun s i => s.removeStep (s.hashfunc (toString i ++ key))) h

/-! ## Single-flight group

Modelled from the spec: the `geecache/singleflight` package (the `Group`
with its mutex-protected in-flight map and `Do(key, work)`) is imported by
`geecache.go` but its source is not under `src/`.  Following spec §4.4, a
caller of `Do` either finds an in-flight entry for the key and waits on its
completion gate (a follower), or registers a fresh entry, invokes `work`
exactly once, stores the result, releases the gate, and deletes the map
entry (the leader).

The model fixes one key (entries for distinct keys are independent) and
interleaves the callers' atomic sections: an entry is identified by its
allocation index into `results`; `results[e] = some v` means entry `e`'s
gate has been released with result `v`.  `work` is modelled as returning a
fresh token per invocation (the ghost counter `invocations`), so that
"identical results" is the sharing property, not determinism of `work`.
The ghost flag `deleted` records that some map deletion has occurred, and
`violated` that a deletion occurred while some caller had not yet executed
its lookup-or-register section — i.e. that the callers did not all arrive
while the first execution was still in flight. -/

namespace SF

/-- The control point of one caller of `Do`. -/
inductive PC where
  | start
  | leader (e : Nat)
  | leaderDone (e : Nat)
  | follower (e : Nat)
  | done (v : Nat)
deriving DecidableEq

/-- The single-flight state for one key, plus ghost bookkeeping. -/
structure State where
  threads : List PC
  entry : Option Nat
  results : List (Option Nat)
  invocations : Nat
  deleted : Bool
  violated : Bool
deriving DecidableEq

/-- The initial state: `n` callers about to invoke `Do`, no in-flight
entry. -/
def init (n : Nat) : State :=
  { threads := List.replicate n .start
    entry := none
    results := []
    invocations := 0
    deleted := false
    violated := false }

/-- One atomic step of caller `t`:
* `start`: under the mutex, look up the key; if an entry is in flight,
  become its follower, else register a fresh entry and become its leader;
* `leader e`: invoke `work` (minting a fresh token), store the result in
  the entry and release its gate;
* `leaderDone e`: under the mutex, delete the map entry, then return the
  entry's result;
* `follower e`: if the gate has been released, return the entry's result,
  else remain blocked;
* `done v`: already returned.
Scheduling a blocked or finished caller, or an index out of range, leaves
the state unchanged. -/
def step (s : State) (t : Nat) : State :=
  match s.threads.get? t with
  | none => s
  | some pc =>
      match pc with
      | .start =>
          match s.entry with
          | some e => { s with threads := s.threads.set t (.follower e) }
          | none =>
              { s with
                entry := some s.results.length
                threads := s.threads.set t (.leader s.results.length)
                results := s.results ++ [none] }
      | .leader e =>
          { s with
            results := s.results.set e (some s.invocations)
            invocations := s.invocations + 1
            threads := s.threads.set t (.leaderDone e) }
      | .leaderDone e =>
          { s with
            entry := none
            deleted := true
            violated := s.violated || s.threads.any (· == .start)
            threads := s.threads.set t (.done ((s.results.getD e none).getD 0)) }
      | .follower e =>
          match s.results.getD e none with
          | some v => { s with threads := s.threads.set t (.done v) }
          | none => s
      | .done _ => s

/-- Run a schedule (a list of caller indices) from a state. -/
def run (sched : List Nat) (s : State) : State :=
  sched.foldl step s

/-- A subsequent caller of `Do` arriving after a run: one more caller at
`start`, indexed by the old number of callers. -/
def State.newCaller (s : State) : State :=
  { s with threads := s.threads ++ [.start] }

/-- The system invariant of the single-flight model: the in-flight entry is
a valid index controlled by exactly one leader; gates are released exactly
when a leader has stored its result; followers reference the live entry or
an already-released gate; returned values come from released gates; before
any deletion at most the first entry exists; after a deletion with
`violated` still false no caller is left unstarted; with `violated` false
at most one entry was ever allocated; and the work-invocation count equals
the number of released gates. -/
structure Inv (s : State) : Prop where
  i1 : ∀ e, s.entry = some e → e < s.results.length
  i2 : ∀ t e, s.threads.get? t = some (.leader e) ∨ s.threads.get? t = some (.leaderDone e) →
      s.entry = some e
  i3 : ∀ t1 t2 e1 e2,
      (s.threads.get? t1 = some (.leader e1) ∨ s.threads.get? t1 = some (.leaderDone e1)) →
      (s.threads.get? t2 = some (.leader e2) ∨ s.threads.get? t2 = some (.leaderDone e2)) →
      t1 = t2
  i4 : ∀ e, s.entry = some e →
      ∃ t, s.threads.get? t = some (.leader e) ∨ s.threads.get? t = some (.leaderDone e)
  i5a : ∀ t e, s.threads.get? t = some (.leader e) → s.results.getD e none = none
  i5b : ∀ t e, s.threads.get? t = some (.leaderDone e) → s.results.getD e none ≠ none
  i6 : ∀ t e, s.threads.get? t = some (.follower e) →
      e < s.results.length ∧ (s.entry = some e ∨ s.results.getD e none ≠ none)
  i7 : ∀ t v, s.threads.get? t = some (.done v) →
      ∃ e, e < s.results.length ∧ s.results.getD e none = some v
  i10 : s.deleted = false → s.results.length ≤ 1 ∧ (s.entry = none → s.results.length = 0)
  i11 : s.deleted = true → s.violated = false → ∀ t, s.threads.get? t ≠ some .start
  i12 : s.violated = false → s.results.length ≤ 1
  i13 : s.invocations = s.results.countP (fun r => r.isSome)

end SF

/-! ## Lemmas: LRU byte accounting -/

theorem nodeSize_nonneg (e : nodeData V) : 0 ≤ nodeSize e := by
  have h1 : (0 : Int) ≤ (e.key.length : Int) := Int.ofNat_nonneg _
  have h2 : (0 : Int) ≤ (Len e.value : Int) := Int.ofNat_nonneg _
  unfold nodeSize
  omega

theorem sumBytes_nil : sumBytes ([] : List (nodeData V)) = 0 := rfl

theorem sumBytes_cons (e : nodeData V) (l : List (nodeData V)) :
    sumBytes (e :: l) = nodeSize e + sumBytes l := by
  simp [sumBytes]

theorem sumBytes_append (l1 l2 : List (nodeData V)) :
    sumBytes (l1 ++ l2) = sumBytes l1 + sumBytes l2 := by
  simp [sumBytes]

theorem sumBytes_nonneg (l : List (nodeData V)) : 0 ≤ sumBytes l := by
  induction l with
  | nil => simp [sumBytes_nil]
  | cons e t ih =>
      rw [sumBytes_cons]
      have := nodeSize_nonneg e
      omega

/-- A successful `find?` splits the list at the first hit, and `eraseP`
removes exactly that element. -/
theorem find?_eraseP_split (p : nodeData V → Bool) :
    ∀ (l : List (nodeData V)) (kv : nodeData V), l.find? p = some kv →
      ∃ l1 l2, l = l1 ++ kv :: l2 ∧ l.eraseP p = l1 ++ l2
  | [], kv => by simp
  | a :: t, kv => by
      intro h
      by_cases hp : p a
      · refine ⟨[], t, ?_, ?_⟩
        · simp [List.find?_cons_of_pos _ hp] at h
          simp [h]
        · simp [List.eraseP_cons_of_pos hp]
      · rw [List.find?_cons_of_neg _ (by simpa using hp)] at h
        obtain ⟨l1, l2, heq, herase⟩ := find?_eraseP_split p t kv h
        exact ⟨a :: l1, l2, by simp [heq], by
          simp [List.eraseP_cons_of_neg (by simpa using hp), herase]⟩

theorem sumBytes_eraseP (p : nodeData V → Bool) (l : List (nodeData V)) (kv : nodeData V)
    (h : l.find? p = some kv) :
    sumBytes (l.eraseP p) = sumBytes l - nodeSize kv := by
  obtain ⟨l1, l2, heq, herase⟩ := find?_eraseP_split p l kv h
  rw [herase, heq, sumBytes_append, sumBytes_append, sumBytes_cons]
  ring

theorem sumBytes_dropLast :
    ∀ (l : List (nodeData V)) (kv : nodeData V), l.getLast? = some kv →
      sumBytes l = sumBytes l.dropLast + nodeSize kv
  | [], kv => by simp
  | [a], kv => by
      intro h
      simp at h
      simp [h, sumBytes_cons, sumBytes_nil]
  | a :: b :: t, kv => by
      intro h
      rw [List.getLast?_cons_cons] at h
      have ih := sumBytes_dropLast (b :: t) kv h
      rw [List.dropLast_cons₂]
      rw [sumBytes_cons a (b :: t), sumBytes_cons a ((b :: t).dropLast), ih]
      ring

/-- `nodeSize` ignores the ghost `touch` field. -/
theorem nodeSize_mk_touch (k : String) (v : V) (t : Nat) :
    nodeSize ({ key := k, value := v, touch := t } : nodeData V) =
      (k.length : Int) + (Len v : Int) := rfl

theorem Cache.WFBytes_RemoveOldest (c : Cache V) (h : c.WFBytes) :
    c.RemoveOldest.WFBytes := by
  unfold Cache.RemoveOldest
  cases hl : c.doubleLinkList.getLast? with
  | none => exact h
  | some kv =>
      unfold Cache.WFBytes at h ⊢
      simp only
      rw [h, sumBytes_dropLast c.doubleLinkList kv hl]
      unfold nodeSize
      ring

theorem Cache.maxBytes_RemoveOldest (c : Cache V) :
    c.RemoveOldest.maxBytes = c.maxBytes := by
  unfold Cache.RemoveOldest
  cases c.doubleLinkList.getLast? <;> rfl

theorem Cache.WFBytes_AddEntry (c : Cache V) (key : String) (value : V) (h : c.WFBytes) :
    (c.AddEntry key value).WFBytes := by
  unfold Cache.AddEntry
  cases hf : c.doubleLinkList.find? (fun e => e.key == key) with
  | none =>
      unfold Cache.WFBytes at h ⊢
      simp only [sumBytes_cons, nodeSize_mk_touch]
      rw [h]
      ring
  | some kv =>
      unfold Cache.WFBytes at h ⊢
      simp only [sumBytes_cons, nodeSize_mk_touch]
      rw [sumBytes_eraseP _ _ _ hf, h]
      unfold nodeSize
      ring

theorem Cache.maxBytes_AddEntry (c : Cache V) (key : String) (value : V) :
    (c.AddEntry key value).maxBytes = c.maxBytes := by
  unfold Cache.AddEntry
  cases c.doubleLinkList.find? (fun e => e.key == key) <;> rfl

theorem Cache.WFBytes_evictLoop :
    ∀ (fuel : Nat) (c : Cache V), c.WFBytes → (Cache.evictLoop fuel c).WFBytes
  | 0, c => fun h => h
  | fuel + 1, c => by
      intro h
      unfold Cache.evictLoop
      split
      · exact Cache.WFBytes_evictLoop fuel _ (c.WFBytes_RemoveOldest h)
      · exact h

theorem Cache.maxBytes_evictLoop :
    ∀ (fuel : Nat) (c : Cache V), (Cache.evictLoop fuel c).maxBytes = c.maxBytes
  | 0, _ => rfl
  | fuel + 1, c => by
      unfold Cache.evictLoop
      split
      · rw [Cache.maxBytes_evictLoop fuel _, Cache.maxBytes_RemoveOldest]
      · rfl

theorem Cache.length_RemoveOldest_lt (c : Cache V) (h : c.doubleLinkList ≠ []) :
    c.RemoveOldest.doubleLinkList.length < c.doubleLinkList.length := by
  unfold Cache.RemoveOldest
  cases hl : c.doubleLinkList.getLast? with
  | none => simp [List.getLast?_eq_none_iff] at hl; exact absurd hl h
  | some kv =>
      simp only [List.length_dropLast]
      have : 0 < c.doubleLinkList.length := List.length_pos.mpr h
      omega

/-- After the eviction loop, when the bound is positive and the byte
accounting holds at entry, the usage is within the bound (either the loop
guard failed, or the cache has been emptied and `nowBytes = 0`). -/
theorem Cache.nowBytes_evictLoop_le :
    ∀ (fuel : Nat) (c : Cache V), c.WFBytes → c.doubleLinkList.length ≤ fuel →
      0 < c.maxBytes → (Cache.evictLoop fuel c).nowBytes ≤ c.maxBytes
  | 0, c => by
      intro hwf hlen hpos
      have hnil : c.doubleLinkList = [] := List.eq_nil_of_length_eq_zero (by omega)
      unfold Cache.evictLoop
      rw [Cache.WFBytes] at hwf
      rw [hnil] at hwf
      simp [sumBytes_nil] at hwf
      omega
  | fuel + 1, c => by
      intro hwf hlen hpos
      unfold Cache.evictLoop
      split
      · rename_i hover
        by_cases hnil : c.doubleLinkList = []
        · exfalso
          rw [Cache.WFBytes, hnil] at hwf
          simp [sumBytes_nil] at hwf
          obtain ⟨-, hlt⟩ := hover
          omega
        · have hlt := c.length_RemoveOldest_lt hnil
          have := Cache.nowBytes_evictLoop_le fuel c.RemoveOldest
            (c.WFBytes_RemoveOldest hwf) (by omega) (by rw [Cache.maxBytes_RemoveOldest]; exact hpos)
          rwa [Cache.maxBytes_RemoveOldest] at this
      · rename_i hover
        rw [Cache.overLimit] at hover
        push_neg at hover
        exact hover (by omega)

theorem Cache.WFBytes_Add (c : Cache V) (key : String) (value : V) (h : c.WFBytes) :
    (c.Add key value).WFBytes :=
  Cache.WFBytes_evictLoop _ _ (c.WFBytes_AddEntry key value h)

theorem Cache.maxBytes_Add (c : Cache V) (key : String) (value : V) :
    (c.Add key value).maxBytes = c.maxBytes := by
  unfold Cache.Add
  rw [Cache.maxBytes_evictLoop, Cache.maxBytes_AddEntry]

theorem Cache.nowBytes_Add_le (c : Cache V) (key : String) (value : V)
    (hwf : c.WFBytes) (hpos : 0 < c.maxBytes) :
    (c.Add key value).nowBytes ≤ c.maxBytes := by
  unfold Cache.Add
  have := Cache.nowBytes_evictLoop_le (c.AddEntry key value).doubleLinkList.length
    (c.AddEntry key value) (c.WFBytes_AddEntry key value hwf) le_rfl
    (by rw [Cache.maxBytes_AddEntry]; exact hpos)
  rwa [Cache.maxBytes_AddEntry] at this

theorem Cache.WFBytes_Get (c : Cache V) (key : String) (h : c.WFBytes) :
    (c.Get key).1.WFBytes := by
  unfold Cache.Get
  cases hf : c.doubleLinkList.find? (fun e => e.key == key) with
  | none => exact h
  | some kv =>
      unfold Cache.WFBytes at h ⊢
      simp only [sumBytes_cons]
      rw [sumBytes_eraseP _ _ _ hf, h]
      have : nodeSize ({ kv with touch := c.clock } : nodeData V) = nodeSize kv := rfl
      rw [this]
      ring

theorem Cache.nowBytes_Get (c : Cache V) (key : String) :
    (c.Get key).1.nowBytes = c.nowBytes := by
  unfold Cache.Get
  cases c.doubleLinkList.find? (fun e => e.key == key) <;> rfl

theorem Cache.maxBytes_Get (c : Cache V) (key : String) :
    (c.Get key).1.maxBytes = c.maxBytes := by
  unfold Cache.Get
  cases c.doubleLinkList.find? (fun e => e.key == key) <;> rfl

theorem Cache.nowBytes_RemoveOldest_le (c : Cache V) :
    c.RemoveOldest.nowBytes ≤ c.nowBytes := by
  unfold Cache.RemoveOldest
  cases hl : c.doubleLinkList.getLast? with
  | none => exact le_rfl
  | some kv =>
      simp only
      have := nodeSize_nonneg kv
      unfold nodeSize at this
      omega

/-- The combined invariant carried through an operation sequence. -/
def Cache.Inv (c : Cache V) : Prop :=
  c.WFBytes ∧ (0 < c.maxBytes → c.nowBytes ≤ c.maxBytes)

theorem Cache.Inv_applyOp (c : Cache V) (op : Op V) (h : c.Inv) : (c.applyOp op).Inv := by
  obtain ⟨hwf, hb⟩ := h
  cases op with
  | add k v =>
      refine ⟨c.WFBytes_Add k v hwf, ?_⟩
      rw [Cache.applyOp, Cache.maxBytes_Add]
      intro hpos
      exact c.nowBytes_Add_le k v hwf hpos
  | get k =>
      refine ⟨c.WFBytes_Get k hwf, ?_⟩
      rw [Cache.applyOp, Cache.maxBytes_Get, Cache.nowBytes_Get]
      exact hb
  | removeOldest =>
      refine ⟨c.WFBytes_RemoveOldest hwf, ?_⟩
      rw [Cache.applyOp, Cache.maxBytes_RemoveOldest]
      intro hpos
      exact le_trans c.nowBytes_RemoveOldest_le (hb hpos)

theorem Cache.Inv_runOps :
    ∀ (ops : List (Op V)) (c : Cache V), c.Inv → (c.runOps ops).Inv
  | [], _ => fun h => h
  | op :: ops, c => fun h =>
      Cache.Inv_runOps ops (c.applyOp op) (c.Inv_applyOp op h)

theorem Cache.maxBytes_applyOp (c : Cache V) (op : Op V) :
    (c.applyOp op).maxBytes = c.maxBytes := by
  cases op with
  | add k v => exact c.maxBytes_Add k v
  | get k => exact c.maxBytes_Get k
  | removeOldest => exact c.maxBytes_RemoveOldest

theorem Cache.maxBytes_runOps :
    ∀ (ops : List (Op V)) (c : Cache V), (c.runOps ops).maxBytes = c.maxBytes
  | [], _ => rfl
  | op :: ops, c => by
      show (Cache.runOps (c.applyOp op) ops).maxBytes = c.maxBytes
      rw [Cache.maxBytes_runOps ops (c.applyOp op), Cache.maxBytes_applyOp]

theorem Cache.Inv_New (maxB : Int) : (Cache.New maxB : Cache V).Inv :=
  ⟨rfl, fun h => Int.le_of_lt h⟩

/-- C1. LRU byte accounting: after every sequence of `Add`, `Get` and
`RemoveOldest` operations on a fresh LRU cache, `nowBytes` equals the sum
of `len(key) + value.Len()` over the live entries, and when `maxBytes > 0`
also `nowBytes ≤ maxBytes`. -/
theorem c1_lru_byte_accounting (maxB : Int) (ops : List (Op V)) :
    ((Cache.New maxB : Cache V).runOps ops).nowBytes =
      sumBytes ((Cache.New maxB : Cache V).runOps ops).doubleLinkList ∧
    (0 < maxB → ((Cache.New maxB : Cache V).runOps ops).nowBytes ≤ maxB) := by
  have hinv := Cache.Inv_runOps ops (Cache.New maxB : Cache V) (Cache.Inv_New maxB)
  obtain ⟨hwf, hb⟩ := hinv
  refine ⟨hwf, fun hpos => ?_⟩
  have hmax := Cache.maxBytes_runOps ops (Cache.New maxB : Cache V)
  have hmax2 : ((Cache.New maxB : Cache V).runOps ops).maxBytes = maxB := hmax
  have hb2 := hb (by rw [hmax2]; exact hpos)
  rwa [hmax2] at hb2

/-- Witness for C1 at a concrete input. -/
theorem c1_lru_byte_accounting_witness :
    ((Cache.New 5 : Cache ByteView).runOps
        ([Op.add "a" ⟨[1]⟩, Op.add "b" ⟨[2, 3]⟩, Op.get "a", Op.add "c" ⟨[4]⟩,
          Op.removeOldest] : List (Op ByteView))).nowBytes =
      sumBytes ((Cache.New 5 : Cache ByteView).runOps
        ([Op.add "a" ⟨[1]⟩, Op.add "b" ⟨[2, 3]⟩, Op.get "a", Op.add "c" ⟨[4]⟩,
          Op.removeOldest] : List (Op ByteView))).doubleLinkList ∧
    ((0 : Int) < 5 → ((Cache.New 5 : Cache ByteView).runOps
        ([Op.add "a" ⟨[1]⟩, Op.add "b" ⟨[2, 3]⟩, Op.get "a", Op.add "c" ⟨[4]⟩,
          Op.removeOldest] : List (Op ByteView))).nowBytes ≤ 5) :=
  c1_lru_byte_accounting 5
    ([Op.add "a" ⟨[1]⟩, Op.add "b" ⟨[2, 3]⟩, Op.get "a", Op.add "c" ⟨[4]⟩,
      Op.removeOldest] : List (Op ByteView))

/-! ## Lemmas: oversized adds and loop termination (C5) -/

theorem Cache.RemoveOldest_list (c : Cache V) (h : c.doubleLinkList ≠ []) :
    c.RemoveOldest.doubleLinkList = c.doubleLinkList.dropLast := by
  unfold Cache.RemoveOldest
  cases hl : c.doubleLinkList.getLast? with
  | none => simp [List.getLast?_eq_none_iff] at hl; exact absurd hl h
  | some kv => rfl

theorem head?_dropLast {α : Type} :
    ∀ (l : List α) (x : α), l.dropLast.head? = some x → l.head? = some x
  | [], x => by simp
  | [a], x => by simp
  | a :: b :: t, x => by
      rw [List.dropLast_cons₂]
      simp

theorem sumBytes_head_le (e : nodeData V) (t : List (nodeData V)) :
    nodeSize e ≤ sumBytes (e :: t) := by
  rw [sumBytes_cons]
  have := sumBytes_nonneg t
  omega

/-- The eviction loop empties the cache when the front entry alone exceeds
a positive bound. -/
theorem Cache.evictLoop_empties :
    ∀ (fuel : Nat) (c : Cache V), c.WFBytes → c.doubleLinkList.length ≤ fuel →
      0 < c.maxBytes →
      (∀ e, c.doubleLinkList.head? = some e → c.maxBytes < nodeSize e) →
      (Cache.evictLoop fuel c).doubleLinkList = [] ∧ (Cache.evictLoop fuel c).nowBytes = 0
  | 0, c => by
      intro hwf hlen _ _
      have hnil : c.doubleLinkList = [] := List.eq_nil_of_length_eq_zero (by omega)
      rw [Cache.WFBytes, hnil] at hwf
      simp [sumBytes_nil] at hwf
      exact ⟨by rw [Cache.evictLoop, hnil], by rw [Cache.evictLoop, hwf]⟩
  | fuel + 1, c => by
      intro hwf hlen hpos hhead
      cases hl : c.doubleLinkList with
      | nil =>
          rw [Cache.WFBytes, hl] at hwf
          simp [sumBytes_nil] at hwf
          have hno : ¬ c.overLimit := by
            rw [Cache.overLimit]
            push_neg
            intro _
            omega
          rw [Cache.evictLoop, if_neg hno]
          exact ⟨hl, hwf⟩
      | cons e t =>
          have hover : c.overLimit := by
            refine ⟨by omega, ?_⟩
            rw [Cache.WFBytes, hl] at hwf
            have h1 := sumBytes_head_le e t
            have h2 := hhead e (by rw [hl]; rfl)
            omega
          rw [Cache.evictLoop, if_pos hover]
          have hne : c.doubleLinkList ≠ [] := by rw [hl]; simp
          have hlist := c.RemoveOldest_list hne
          refine Cache.evictLoop_empties fuel c.RemoveOldest (c.WFBytes_RemoveOldest hwf)
            ?_ (by rw [Cache.maxBytes_RemoveOldest]; exact hpos) ?_
          · rw [hlist, hl]
            rw [hl] at hlen
            simp at hlen ⊢
            omega
          · intro e2 he2
            rw [Cache.maxBytes_RemoveOldest]
            rw [hlist] at he2
            exact hhead e2 (head?_dropLast _ _ he2)

/-- Iterating `RemoveOldest` as many times as there are entries empties the
cache and zeroes `nowBytes` (given the byte accounting). -/
theorem Cache.iterate_RemoveOldest_empties :
    ∀ (n : Nat) (c : Cache V), c.WFBytes → c.doubleLinkList.length = n →
      (Cache.RemoveOldest^[n] c).doubleLinkList = [] ∧
        (Cache.RemoveOldest^[n] c).nowBytes = 0
  | 0, c => by
      intro hwf hlen
      have hnil : c.doubleLinkList = [] := List.eq_nil_of_length_eq_zero hlen
      rw [Cache.WFBytes, hnil] at hwf
      simp [sumBytes_nil] at hwf
      simpa [hnil] using hwf
  | n + 1, c => by
      intro hwf hlen
      rw [Function.iterate_succ_apply]
      have hne : c.doubleLinkList ≠ [] := by
        intro h
        rw [h] at hlen
        simp at hlen
      refine Cache.iterate_RemoveOldest_empties n c.RemoveOldest
        (c.WFBytes_RemoveOldest hwf) ?_
      rw [c.RemoveOldest_list hne, List.length_dropLast]
      omega

theorem Cache.maxBytes_iterate_RemoveOldest :
    ∀ (n : Nat) (c : Cache V), (Cache.RemoveOldest^[n] c).maxBytes = c.maxBytes
  | 0, _ => rfl
  | n + 1, c => by
      rw [Function.iterate_succ_apply]
      rw [Cache.maxBytes_iterate_RemoveOldest n c.RemoveOldest, Cache.maxBytes_RemoveOldest]

/-- C5 counterexample.  With `maxBytes = -1` (non-zero, as the claim
requires) and the oversized entry `("", empty)` of size `0 > maxBytes`,
the eviction loop inside `Add` never terminates: its guard
`maxBytes != 0 && maxBytes < nowBytes` holds after every number of
`RemoveOldest` iterations from the post-insertion state, so no iteration
count makes the loop exit (and the Go call to `Add` diverges). -/
theorem c5_counterexample :
    ¬ ∃ n : Nat,
        ¬ (Cache.RemoveOldest^[n]
            ((Cache.New (-1) : Cache ByteView).AddEntry "" ⟨[]⟩)).overLimit := by
  rintro ⟨n, hn⟩
  apply hn
  clear hn
  have key : ∀ m : Nat,
      Cache.RemoveOldest^[m] ((Cache.New (-1) : Cache ByteView).AddEntry "" ⟨[]⟩) =
        ((Cache.New (-1) : Cache ByteView).AddEntry "" ⟨[]⟩) ∨
      Cache.RemoveOldest^[m] ((Cache.New (-1) : Cache ByteView).AddEntry "" ⟨[]⟩) =
        Cache.RemoveOldest ((Cache.New (-1) : Cache ByteView).AddEntry "" ⟨[]⟩) := by
    intro m
    induction m with
    | zero => exact Or.inl rfl
    | succ m ih =>
        rw [Function.iterate_succ_apply']
        rcases ih with h | h
        · rw [h]; exact Or.inr rfl
        · rw [h]; right; decide
  rcases key n with h | h <;> rw [h] <;> decide

/-- C5 (amended): when `maxBytes > 0` (rather than merely non-zero) and the
byte accounting holds, an `Add` whose entry size `len(key) + value.Len()`
exceeds `maxBytes` terminates — after at most `length` iterations of
`RemoveOldest` from the post-insertion state the loop guard is false — and
leaves the cache with no entries and `nowBytes = 0`. -/
theorem c5_oversized_add_empties (c : Cache V) (key : String) (value : V)
    (hwf : c.WFBytes) (hpos : 0 < c.maxBytes)
    (hbig : c.maxBytes < (key.length : Int) + (Len value : Int)) :
    ¬ (Cache.RemoveOldest^[(c.AddEntry key value).doubleLinkList.length]
        (c.AddEntry key value)).overLimit ∧
    (c.Add key value).doubleLinkList = [] ∧ (c.Add key value).nowBytes = 0 := by
  have hwf1 := c.WFBytes_AddEntry key value hwf
  have hmax1 := c.maxBytes_AddEntry key value
  have hhead : ∀ e, (c.AddEntry key value).doubleLinkList.head? = some e →
      (c.AddEntry key value).maxBytes < nodeSize e := by
    intro e he
    rw [hmax1]
    rw [Cache.AddEntry] at he
    cases hf : c.doubleLinkList.find? (fun e2 => e2.key == key) with
    | some kv =>
        rw [hf] at he
        simp at he
        have hk : kv.key = key := by
          have := List.find?_some hf
          simpa using this
        rw [← he, nodeSize, hk]
        simpa using hbig
    | none =>
        rw [hf] at he
        simp at he
        rw [← he, nodeSize]
        simpa using hbig
  constructor
  · have hiter := Cache.iterate_RemoveOldest_empties
      (c.AddEntry key value).doubleLinkList.length (c.AddEntry key value) hwf1 rfl
    rw [Cache.overLimit]
    push_neg
    intro _
    rw [hiter.2, Cache.maxBytes_iterate_RemoveOldest, hmax1]
    omega
  · have := Cache.evictLoop_empties (c.AddEntry key value).doubleLinkList.length
      (c.AddEntry key value) hwf1 le_rfl (by rw [hmax1]; exact hpos) hhead
    exact this

/-- Witness for C5 (amended) at a concrete input. -/
theorem c5_oversized_add_empties_witness :
    (Cache.New 1 : Cache ByteView).WFBytes ∧ (0 : Int) < (Cache.New 1 : Cache ByteView).maxBytes ∧
    (Cache.New 1 : Cache ByteView).maxBytes <
      ("ab".length : Int) + (Len (⟨[7]⟩ : ByteView) : Int) ∧
    (¬ (Cache.RemoveOldest^[((Cache.New 1 : Cache ByteView).AddEntry "ab" ⟨[7]⟩).doubleLinkList.length]
        ((Cache.New 1 : Cache ByteView).AddEntry "ab" ⟨[7]⟩)).overLimit ∧
      ((Cache.New 1 : Cache ByteView).Add "ab" ⟨[7]⟩).doubleLinkList = [] ∧
      ((Cache.New 1 : Cache ByteView).Add "ab" ⟨[7]⟩).nowBytes = 0) :=
  ⟨rfl, by decide, by decide,
    c5_oversized_add_empties (Cache.New 1 : Cache ByteView) "ab" ⟨[7]⟩ rfl (by decide) (by decide)⟩

/-! ## Lemmas: LRU recency order (C6) -/

/-- The recency invariant: the ghost timestamps strictly decrease from
front to back and are all below the clock. -/
def Cache.RecencyInv (c : Cache V) : Prop :=
  c.doubleLinkList.Pairwise (fun a b => b.touch < a.touch) ∧
    ∀ e ∈ c.doubleLinkList, e.touch < c.clock

theorem mem_of_getLast?_eq {α : Type} :
    ∀ (l : List α) (b : α), l.getLast? = some b → b ∈ l
  | [], b => by simp
  | [a], b => by
      intro h
      simp at h
      simp [h]
  | a :: a2 :: t, b => by
      rw [List.getLast?_cons_cons]
      intro h
      exact List.mem_cons_of_mem a (mem_of_getLast?_eq (a2 :: t) b h)

theorem pairwise_getLast_min :
    ∀ (l : List (nodeData V)), l.Pairwise (fun a b => b.touch < a.touch) →
      ∀ b, l.getLast? = some b → ∀ e ∈ l, b.touch ≤ e.touch
  | [], _ => by simp
  | a :: t, hp => by
      intro b hb e he
      rw [List.pairwise_cons] at hp
      cases t with
      | nil =>
          simp at hb he
          rw [he, ← hb]
      | cons a2 t2 =>
          rw [List.getLast?_cons_cons] at hb
          rcases List.mem_cons.mp he with rfl | he2
          · have hbmem := mem_of_getLast?_eq (a2 :: t2) b hb
            exact le_of_lt (hp.1 b hbmem)
          · exact pairwise_getLast_min (a2 :: t2) hp.2 b hb e he2

theorem Cache.RecencyInv_AddEntry (c : Cache V) (key : String) (value : V)
    (h : c.RecencyInv) : (c.AddEntry key value).RecencyInv := by
  obtain ⟨hp, hc⟩ := h
  unfold Cache.AddEntry
  cases hf : c.doubleLinkList.find? (fun e => e.key == key) with
  | some kv =>
      refine ⟨List.pairwise_cons.mpr ⟨?_, ?_⟩, ?_⟩
      · intro b hb
        exact hc b ((c.doubleLinkList.eraseP_sublist).mem hb)
      · exact hp.sublist c.doubleLinkList.eraseP_sublist
      · intro e he
        rcases List.mem_cons.mp he with rfl | he2
        · simp
        · have := hc e ((c.doubleLinkList.eraseP_sublist).mem he2)
          simp only
          omega
  | none =>
      refine ⟨List.pairwise_cons.mpr ⟨?_, ?_⟩, ?_⟩
      · intro b hb
        exact hc b hb
      · exact hp
      · intro e he
        rcases List.mem_cons.mp he with rfl | he2
        · simp
        · have := hc e he2
          simp only
          omega

theorem Cache.RecencyInv_Get (c : Cache V) (key : String)
    (h : c.RecencyInv) : (c.Get key).1.RecencyInv := by
  obtain ⟨hp, hc⟩ := h
  unfold Cache.Get
  cases hf : c.doubleLinkList.find? (fun e => e.key == key) with
  | some kv =>
      refine ⟨List.pairwise_cons.mpr ⟨?_, ?_⟩, ?_⟩
      · intro b hb
        exact hc b ((c.doubleLinkList.eraseP_sublist).mem hb)
      · exact hp.sublist c.doubleLinkList.eraseP_sublist
      · intro e he
        rcases List.mem_cons.mp he with rfl | he2
        · simp
        · have := hc e ((c.doubleLinkList.eraseP_sublist).mem he2)
          simp only
          omega
  | none => exact ⟨hp, hc⟩

theorem Cache.RecencyInv_RemoveOldest (c : Cache V) (h : c.RecencyInv) :
    c.RemoveOldest.RecencyInv := by
  obtain ⟨hp, hc⟩ := h
  unfold Cache.RemoveOldest
  cases hl : c.doubleLinkList.getLast? with
  | none => exact ⟨hp, hc⟩
  | some kv =>
      refine ⟨hp.sublist c.doubleLinkList.dropLast_sublist, ?_⟩
      intro e he
      exact hc e (c.doubleLinkList.dropLast_sublist.mem he)

theorem Cache.RecencyInv_evictLoop :
    ∀ (fuel : Nat) (c : Cache V), c.RecencyInv → (Cache.evictLoop fuel c).RecencyInv
  | 0, _ => fun h => h
  | fuel + 1, c => by
      intro h
      unfold Cache.evictLoop
      split
      · exact Cache.RecencyInv_evictLoop fuel _ (c.RecencyInv_RemoveOldest h)
      · exact h

theorem Cache.RecencyInv_Add (c : Cache V) (key : String) (value : V)
    (h : c.RecencyInv) : (c.Add key value).RecencyInv :=
  Cache.RecencyInv_evictLoop _ _ (c.RecencyInv_AddEntry key value h)

theorem Cache.RecencyInv_runOps :
    ∀ (ops : List (Op V)) (c : Cache V), c.RecencyInv → (c.runOps ops).RecencyInv
  | [], _ => fun h => h
  | op :: ops, c => fun h => by
      refine Cache.RecencyInv_runOps ops (c.applyOp op) ?_
      cases op with
      | add k v => exact c.RecencyInv_Add k v h
      | get k => exact c.RecencyInv_Get k h
      | removeOldest => exact c.RecencyInv_RemoveOldest h

theorem Cache.RecencyInv_New (maxB : Int) : (Cache.New maxB : Cache V).RecencyInv :=
  ⟨List.Pairwise.nil, by intro e he; simp [Cache.New] at he⟩

/-- `RemoveOldest` always leaves exactly the `dropLast` of the entry list
(on an empty list both are the empty list). -/
theorem Cache.RemoveOldest_list_eq (c : Cache V) :
    c.RemoveOldest.doubleLinkList = c.doubleLinkList.dropLast := by
  unfold Cache.RemoveOldest
  cases hl : c.doubleLinkList.getLast? with
  | none =>
      rw [List.getLast?_eq_none_iff] at hl
      rw [hl]
      rfl
  | some kv => rfl

theorem dropLast_head_cases {α : Type} (l : List α) :
    l.dropLast = [] ∨ l.dropLast.head? = l.head? := by
  match l with
  | [] => exact Or.inl rfl
  | [a] => exact Or.inl rfl
  | a :: b :: t => right; rw [List.dropLast_cons₂]; rfl

theorem Cache.evictLoop_list_nil :
    ∀ (fuel : Nat) (c : Cache V), c.doubleLinkList = [] →
      (Cache.evictLoop fuel c).doubleLinkList = []
  | 0, _ => fun h => h
  | fuel + 1, c => by
      intro h
      unfold Cache.evictLoop
      split
      · refine Cache.evictLoop_list_nil fuel _ ?_
        rw [c.RemoveOldest_list_eq, h]
        rfl
      · exact h

/-- The eviction loop either empties the list or preserves its head. -/
theorem Cache.evictLoop_head :
    ∀ (fuel : Nat) (c : Cache V),
      (Cache.evictLoop fuel c).doubleLinkList = [] ∨
        (Cache.evictLoop fuel c).doubleLinkList.head? = c.doubleLinkList.head?
  | 0, _ => Or.inr rfl
  | fuel + 1, c => by
      unfold Cache.evictLoop
      split
      · rcases dropLast_head_cases c.doubleLinkList with hdrop | hdrop
        · left
          refine Cache.evictLoop_list_nil fuel _ ?_
          rw [c.RemoveOldest_list_eq]
          exact hdrop
        · rcases Cache.evictLoop_head fuel c.RemoveOldest with h | h
          · exact Or.inl h
          · right
            rw [h, c.RemoveOldest_list_eq]
            exact hdrop
      · exact Or.inr rfl

/-- After the insertion phase of `Add`, the front entry carries the added
key. -/
theorem Cache.AddEntry_head (c : Cache V) (key : String) (value : V) :
    ∃ e, (c.AddEntry key value).doubleLinkList.head? = some e ∧ e.key = key := by
  unfold Cache.AddEntry
  cases hf : c.doubleLinkList.find? (fun e => e.key == key) with
  | some kv =>
      refine ⟨_, rfl, ?_⟩
      have := List.find?_some hf
      simpa using this
  | none => exact ⟨_, rfl, rfl⟩

/-- A successful `Get` leaves the hit entry at the front. -/
theorem Cache.Get_head (c : Cache V) (key : String) (v0 : V)
    (h : (c.Get key).2 = some v0) :
    ∃ e, (c.Get key).1.doubleLinkList.head? = some e ∧ e.key = key := by
  unfold Cache.Get at h ⊢
  cases hf : c.doubleLinkList.find? (fun e => e.key == key) with
  | some kv =>
      refine ⟨_, rfl, ?_⟩
      have := List.find?_some hf
      simpa using this
  | none =>
      rw [hf] at h
      simp at h

/-- C6 counterexample.  With `maxBytes = 1`, `Add("ab", [7])` (entry size
`3 > 1`) evicts everything including the entry just added, so afterwards
there is no front entry carrying the added key, contradicting the claim
that after an `Add(k, _)` the entry for `k` is the front element. -/
theorem c6_counterexample :
    ¬ (((Cache.New 1 : Cache ByteView).Add "ab" ⟨[7]⟩).doubleLinkList.head?.map
        nodeData.key = some "ab") := by
  decide

/-- C6 (amended): on every reachable LRU cache state,
(1) after a successful `Get(k)` the entry for `k` is the front element;
(2) after `Add(k, _)` the entry for `k` is the front element unless the
add evicted the whole cache, entry included (the oversized-entry case);
(3) `RemoveOldest` removes exactly the back element, and the back element
is a least recently touched live entry. -/
theorem c6_lru_recency (maxB : Int) (ops : List (Op V)) :
    (∀ key v0, (((Cache.New maxB : Cache V).runOps ops).Get key).2 = some v0 →
      ∃ e, (((Cache.New maxB : Cache V).runOps ops).Get key).1.doubleLinkList.head? = some e ∧
        e.key = key) ∧
    (∀ key value, (((Cache.New maxB : Cache V).runOps ops).Add key value).doubleLinkList = [] ∨
      ∃ e, (((Cache.New maxB : Cache V).runOps ops).Add key value).doubleLinkList.head? = some e ∧
        e.key = key) ∧
    ((Cache.New maxB : Cache V).runOps ops).RemoveOldest.doubleLinkList =
      ((Cache.New maxB : Cache V).runOps ops).doubleLinkList.dropLast ∧
    (∀ b, ((Cache.New maxB : Cache V).runOps ops).doubleLinkList.getLast? = some b →
      ∀ e ∈ ((Cache.New maxB : Cache V).runOps ops).doubleLinkList, b.touch ≤ e.touch) := by
  have hinv := Cache.RecencyInv_runOps ops (Cache.New maxB : Cache V) (Cache.RecencyInv_New maxB)
  refine ⟨?_, ?_, Cache.RemoveOldest_list_eq _, ?_⟩
  · intro key v0 h
    exact Cache.Get_head _ key v0 h
  · intro key value
    rw [Cache.Add]
    rcases Cache.evictLoop_head
      (((Cache.New maxB : Cache V).runOps ops).AddEntry key value).doubleLinkList.length
      (((Cache.New maxB : Cache V).runOps ops).AddEntry key value) with h | h
    · exact Or.inl h
    · right
      obtain ⟨e, he, hk⟩ := Cache.AddEntry_head ((Cache.New maxB : Cache V).runOps ops) key value
      exact ⟨e, by rw [h]; exact he, hk⟩
  · exact pairwise_getLast_min _ hinv.1

/-- Witness for C6 (amended) at a concrete input. -/
theorem c6_lru_recency_witness :
    (∀ key v0, (((Cache.New 10 : Cache ByteView).runOps
        ([Op.add "a" ⟨[1]⟩, Op.add "b" ⟨[2]⟩, Op.get "a"] : List (Op ByteView))).Get key).2 = some v0 →
      ∃ e, (((Cache.New 10 : Cache ByteView).runOps
        ([Op.add "a" ⟨[1]⟩, Op.add "b" ⟨[2]⟩, Op.get "a"] : List (Op ByteView))).Get key).1.doubleLinkList.head? = some e ∧
        e.key = key) ∧
    (∀ key value, (((Cache.New 10 : Cache ByteView).runOps
        ([Op.add "a" ⟨[1]⟩, Op.add "b" ⟨[2]⟩, Op.get "a"] : List (Op ByteView))).Add key value).doubleLinkList = [] ∨
      ∃ e, (((Cache.New 10 : Cache ByteView).runOps
        ([Op.add "a" ⟨[1]⟩, Op.add "b" ⟨[2]⟩, Op.get "a"] : List (Op ByteView))).Add key value).doubleLinkList.head? = some e ∧
        e.key = key) ∧
    ((Cache.New 10 : Cache ByteView).runOps
        ([Op.add "a" ⟨[1]⟩, Op.add "b" ⟨[2]⟩, Op.get "a"] : List (Op ByteView))).RemoveOldest.doubleLinkList =
      ((Cache.New 10 : Cache ByteView).runOps
        ([Op.add "a" ⟨[1]⟩, Op.add "b" ⟨[2]⟩, Op.get "a"] : List (Op ByteView))).doubleLinkList.dropLast ∧
    (∀ b, ((Cache.New 10 : Cache ByteView).runOps
        ([Op.add "a" ⟨[1]⟩, Op.add "b" ⟨[2]⟩, Op.get "a"] : List (Op ByteView))).doubleLinkList.getLast? = some b →
      ∀ e ∈ ((Cache.New 10 : Cache ByteView).runOps
        ([Op.add "a" ⟨[1]⟩, Op.add "b" ⟨[2]⟩, Op.get "a"] : List (Op ByteView))).doubleLinkList, b.touch ≤ e.touch) :=
  c6_lru_recency 10 ([Op.add "a" ⟨[1]⟩, Op.add "b" ⟨[2]⟩, Op.get "a"] : List (Op ByteView))

/-! ## Lemmas: group orchestrator (C7, C8, C9) -/

/-- A missed `Cache.Get` leaves the cache unchanged. -/
theorem Cache.Get_miss (c : Cache V) (key : String) (h : (c.Get key).2 = none) :
    c.Get key = (c, none) := by
  unfold Cache.Get at h ⊢
  cases hf : c.doubleLinkList.find? (fun e => e.key == key) with
  | some kv => rw [hf] at h; simp at h
  | none => rfl

/-- A missed `LockCache.get` leaves the shell unchanged. -/
theorem LockCache.get_miss (c : LockCache) (key : String) (h : (c.get key).2 = none) :
    c.get key = (c, none) := by
  obtain ⟨clru, cb⟩ := c
  cases clru with
  | none => rfl
  | some l =>
      rcases hg : l.Get key with ⟨l2, ov⟩
      have h2 : LockCache.get { lru := some l, cacheBytes := cb } key =
          (match l.Get key with
            | (l2, some v) => ({ lru := some l2, cacheBytes := cb }, some v)
            | (l2, none) => ({ lru := some l2, cacheBytes := cb }, none)) := rfl
      rw [h2, hg] at h ⊢
      cases ov with
      | some v => simp at h
      | none =>
          have hl2 : l2 = l := by
            have hm := Cache.Get_miss l key (by rw [hg])
            rw [hg] at hm
            exact ((Prod.mk.injEq _ _ _ _).mp hm).1
          simp [hl2]

/-- When no picked peer delivers a value, `load` falls back to the local
loader. -/
theorem Group.load_local (g : Group) (key : String)
    (h : ∀ picker peer, g.peers = some picker → picker key = some peer →
      (g.getFromPeer peer key).2 ≠ none) :
    g.load key = g.getLocally key := by
  cases hp : g.peers with
  | none => simp only [Group.load, hp]
  | some picker =>
      cases hpick : picker key with
      | none => simp only [Group.load, hp, hpick]
      | some peer =>
          rcases hfp : g.getFromPeer peer key with ⟨v, oe⟩
          cases oe with
          | none => exact absurd (by rw [hfp]) (h picker peer hp hpick)
          | some e2 => simp only [Group.load, hp, hpick, hfp]

/-- On a miss with a non-empty key, `Get` delegates to `load`. -/
theorem Group.Get_on_miss (g : Group) (key : String) (hkey : key ≠ "")
    (hmiss : (g.lockCache.get key).2 = none) :
    g.Get key = g.load key := by
  have hshell := g.lockCache.get_miss key hmiss
  rw [Group.Get, if_neg hkey, hshell]

/-- C9. Empty-key validation: `Group.Get("")` returns the zero byte view
and the validation error and leaves the whole group state — cache shell
included — unchanged, for every group (in particular the result does not
depend on the cache shell or the loader, which are therefore not
consulted). -/
theorem c9_empty_key_rejected (g : Group) :
    g.Get "" = (g, ⟨[]⟩, some "key is required") := by
  rw [Group.Get, if_pos rfl]

/-- C7. Loader-error atomicity: on a cache miss, when no picked peer
delivers a value and the loader callback errors, `Group.Get` propagates
exactly that error with the zero byte view, and the group — its cache
shell in particular — is unchanged, so nothing is cached for the key. -/
theorem c7_loader_error_atomic (g : Group) (key : String) (e : String)
    (hkey : key ≠ "")
    (hmiss : (g.lockCache.get key).2 = none)
    (hpeer : ∀ picker peer, g.peers = some picker → picker key = some peer →
      (g.getFromPeer peer key).2 ≠ none)
    (herr : (g.callback key).2 = some e) :
    g.Get key = (g, ⟨[]⟩, some e) := by
  rw [g.Get_on_miss key hkey hmiss, g.load_local key hpeer]
  rcases hcb : g.callback key with ⟨bs, oe⟩
  rw [hcb] at herr
  simp at herr
  subst herr
  simp only [Group.getLocally, hcb]

/-- Witness for C7 at a concrete input. -/
theorem c7_loader_error_atomic_witness :
    ("k" : String) ≠ "" ∧ (exampleErrGroup.lockCache.get "k").2 = none ∧
    (exampleErrGroup.callback "k").2 = some "boom" ∧
    exampleErrGroup.Get "k" = (exampleErrGroup, ⟨[]⟩, some "boom") :=
  ⟨by decide, rfl, rfl,
    c7_loader_error_atomic exampleErrGroup "k" "boom" (by decide) rfl
      (fun picker peer hp _ => Option.noConfusion hp) rfl⟩

/-- C8. Remote fetches do not populate the local cache: on a miss routed to
a peer whose RPC succeeds, `Group.Get` returns the peer's byte view and the
group — its cache shell in particular — is unchanged. -/
theorem c8_remote_not_cached (g : Group) (key : String) (picker : PeerPicker)
    (peer : PeerGetter) (bytes : List Nat)
    (hkey : key ≠ "")
    (hmiss : (g.lockCache.get key).2 = none)
    (hp : g.peers = some picker)
    (hpick : picker key = some peer)
    (hok : peer { group := g.name, key := key } = (bytes, none)) :
    g.Get key = (g, ⟨bytes⟩, none) := by
  have hfp : g.getFromPeer peer key = (⟨bytes⟩, none) := by
    simp only [Group.getFromPeer, hok]
  rw [g.Get_on_miss key hkey hmiss]
  simp only [Group.load, hp, hpick, hfp]

/-- Witness for C8 at a concrete input. -/
theorem c8_remote_not_cached_witness :
    ("k" : String) ≠ "" ∧ (examplePeerGroup.lockCache.get "k").2 = none ∧
    examplePeerGroup.peers = some examplePicker ∧
    examplePicker "k" = some examplePeer ∧
    examplePeer { group := examplePeerGroup.name, key := "k" } = ([7, 8], none) ∧
    examplePeerGroup.Get "k" = (examplePeerGroup, ⟨[7, 8]⟩, none) :=
  ⟨by decide, rfl, rfl, rfl, rfl,
    c8_remote_not_cached examplePeerGroup "k" examplePicker examplePeer [7, 8]
      (by decide) rfl rfl rfl rfl⟩

/-! ## Lemmas: the Go binary search (C3, C4, C10) -/

/-- Characterisation of the `sort.Search` loop on a monotone predicate:
with the invariant that `f` is false below `i` and true on `[j, n)`, the
result is below every true index and at-or-below every false index. -/
theorem goSearchAux_spec (n : Nat) (f : Nat → Bool)
    (hmono : ∀ a b, a ≤ b → b < n → f a = true → f b = true) :
    ∀ (fuel i j : Nat), i ≤ j → j ≤ n → j - i ≤ fuel →
      (∀ k, k < i → f k = false) → (∀ k, j ≤ k → k < n → f k = true) →
      i ≤ goSearchAux f fuel i j ∧ goSearchAux f fuel i j ≤ j ∧
        (∀ k, k < goSearchAux f fuel i j → f k = false) ∧
        (∀ k, goSearchAux f fuel i j ≤ k → k < n → f k = true)
  | 0, i, j => by
      intro hij hjn hfuel hlow hhigh
      have hji : i = j := by omega
      subst hji
      exact ⟨le_rfl, le_rfl, hlow, fun k hk hkn => hhigh k hk hkn⟩
  | fuel + 1, i, j => by
      intro hij hjn hfuel hlow hhigh
      unfold goSearchAux
      by_cases hlt : i < j
      · rw [if_pos hlt]
        cases hfm : f ((i + j) / 2) with
        | true =>
            rw [if_pos (rfl : (true : Bool) = true)]
            have h := goSearchAux_spec n f hmono fuel i ((i + j) / 2)
              (by omega) (by omega) (by omega) hlow
              (fun k hk hkn => hmono ((i + j) / 2) k hk hkn hfm)
            exact ⟨h.1, by omega, h.2.2.1, h.2.2.2⟩
        | false =>
            rw [if_neg (by simp : ¬ ((false : Bool) = true))]
            have hlow2 : ∀ k, k < (i + j) / 2 + 1 → f k = false := by
              intro k hk
              by_cases hki : k < i
              · exact hlow k hki
              · cases hfk : f k with
                | false => rfl
                | true =>
                    exact absurd (hmono k ((i + j) / 2) (by omega) (by omega) hfk)
                      (by simp [hfm])
            have h := goSearchAux_spec n f hmono fuel ((i + j) / 2 + 1) j
              (by omega) hjn (by omega) hlow2 hhigh
            exact ⟨by omega, h.2.1, h.2.2.1, h.2.2.2⟩
      · rw [if_neg hlt]
        have hji : i = j := by omega
        subst hji
        exact ⟨le_rfl, le_rfl, hlow, fun k hk hkn => hhigh k hk hkn⟩

/-- `sort.Search(n, f)` on a monotone `f`: below the result `f` is false,
from the result (up to `n`) it is true. -/
theorem goSearch_spec (n : Nat) (f : Nat → Bool)
    (hmono : ∀ a b, a ≤ b → b < n → f a = true → f b = true) :
    goSearch n f ≤ n ∧ (∀ k, k < goSearch n f → f k = false) ∧
      (∀ k, goSearch n f ≤ k → k < n → f k = true) := by
  have h := goSearchAux_spec n f hmono n 0 n (Nat.zero_le n) le_rfl (by omega)
    (by omega) (by intro k hk hkn; omega)
  exact ⟨h.2.1, h.2.2.1, h.2.2.2⟩

/-- Characterisation of `List.findIdx` (the spec-side linear scan). -/
theorem findIdx_char (p : Nat → Bool) :
    ∀ l : List Nat,
      l.findIdx p ≤ l.length ∧
      (∀ k, k < l.findIdx p → p (l.getD k 0) = false) ∧
      (l.findIdx p < l.length → p (l.getD (l.findIdx p) 0) = true)
  | [] => by simp
  | a :: t => by
      rw [List.findIdx_cons]
      cases hp : p a with
      | true => simpa using hp
      | false =>
          obtain ⟨h1, h2, h3⟩ := findIdx_char p t
          simp only [cond_false]
          refine ⟨by simpa using h1, ?_, ?_⟩
          · intro k hk
            cases k with
            | zero => simpa using hp
            | succ k2 => exact h2 k2 (by omega)
          · intro hlen
            exact h3 (by simpa using hlen)

/-- On a sorted list the search predicate `hash ≤ l[i]` is monotone in the
index. -/
theorem sorted_pred_mono (l : List Nat) (hs : l.Sorted (· ≤ ·)) (hv : Nat) :
    ∀ a b, a ≤ b → b < l.length →
      decide (hv ≤ l.getD a 0) = true → decide (hv ≤ l.getD b 0) = true := by
  intro a b hab hb hd
  have ha : a < l.length := by omega
  rw [decide_eq_true_eq] at hd
  rw [decide_eq_true_eq]
  have hmono : l.getD a 0 ≤ l.getD b 0 := by
    rw [List.getD_eq_getElem l 0 ha, List.getD_eq_getElem l 0 hb]
    rcases Nat.eq_or_lt_of_le hab with rfl | hab2
    · exact le_rfl
    · exact List.pairwise_iff_getElem.mp hs a b ha hb hab2
  omega

/-- A fresh ring has a sorted (empty) point array. -/
theorem ConsistHash.sorted_New (replicas : Nat) (f : HashFunc) :
    ((ConsistHash.New replicas f).keys).Sorted (· ≤ ·) := List.sorted_nil

/-- `Add` always leaves the point array sorted (it ends by sorting). -/
theorem ConsistHash.sorted_Add (s : ConsistHash) (names : List String) :
    ((s.Add names).keys).Sorted (· ≤ ·) := List.sorted_insertionSort _ _

theorem ConsistHash.removeStep_sorted (s : ConsistHash) (v : Nat) (s2 : ConsistHash)
    (hs : s.keys.Sorted (· ≤ ·)) (h : s.removeStep v = some s2) :
    s2.keys.Sorted (· ≤ ·) := by
  unfold ConsistHash.removeStep at h
  split at h
  · simp only [Option.some.injEq] at h
    subst h
    simp only
    rw [← List.eraseIdx_eq_take_drop_succ]
    exact hs.sublist (List.eraseIdx_sublist _ _)
  · exact absurd h (by simp)

theorem removeLoop_sorted (key : String) :
    ∀ (idxs : List Nat) (s s2 : ConsistHash), s.keys.Sorted (· ≤ ·) →
      idxs.foldlM (fun t i => ConsistHash.removeStep t (t.hashfunc (toString i ++ key))) s =
        some s2 →
      s2.keys.Sorted (· ≤ ·)
  | [], s, s2 => by
      intro hs h
      simp at h
      rwa [← h]
  | i :: t, s, s2 => by
      intro hs h
      rw [List.foldlM_cons] at h
      cases hstep : s.removeStep (s.hashfunc (toString i ++ key)) with
      | none => rw [hstep] at h; simp at h
      | some s1 =>
          rw [hstep] at h
          simp only [Option.bind_eq_bind, Option.some_bind] at h
          exact removeLoop_sorted key t s1 s2 (ConsistHash.removeStep_sorted s _ s1 hs hstep) h

/-- A successful `Remove` preserves sortedness of the point array; with
`sorted_New` and `sorted_Add` this shows every reachable ring state has a
sorted array, justifying the sortedness hypotheses below. -/
theorem ConsistHash.sorted_Remove (s : ConsistHash) (key : String) (s2 : ConsistHash)
    (hs : s.keys.Sorted (· ≤ ·)) (h : s.Remove key = some s2) :
    s2.keys.Sorted (· ≤ ·) :=
  removeLoop_sorted key (List.range s.replicas) s s2 hs h

/-- C3. Ring lookup: on every ring state with a sorted point array (i.e.
every reachable state), `Get` returns the empty name on an empty ring, and
otherwise resolves the point at the least index whose value is `≥
hash(key)` — an equal value selects that point itself — wrapping to index
0 when there is no such index, exactly as `specGet` words the spec. -/
theorem c3_ring_get_spec (s : ConsistHash) (key : String)
    (hs : s.keys.Sorted (· ≤ ·)) :
    s.Get key = s.specGet key := by
  by_cases hn : s.keys.length = 0
  · simp only [ConsistHash.Get, ConsistHash.specGet, if_pos hn]
  · have hmono := sorted_pred_mono s.keys hs (s.hashfunc key)
    have hgs := goSearch_spec s.keys.length
      (fun i => decide (s.hashfunc key ≤ s.keys.getD i 0)) hmono
    have hfi := findIdx_char (fun x => decide (s.hashfunc key ≤ x)) s.keys
    have heq : goSearch s.keys.length (fun i => decide (s.hashfunc key ≤ s.keys.getD i 0)) =
        s.keys.findIdx (fun x => decide (s.hashfunc key ≤ x)) := by
      rcases Nat.lt_trichotomy
        (goSearch s.keys.length (fun i => decide (s.hashfunc key ≤ s.keys.getD i 0)))
        (s.keys.findIdx (fun x => decide (s.hashfunc key ≤ x))) with h | h | h
      · exfalso
        have hlt : goSearch s.keys.length
            (fun i => decide (s.hashfunc key ≤ s.keys.getD i 0)) < s.keys.length := by
          have := hfi.1
          omega
        have hf1 : s.hashfunc key ≤ s.keys.getD
            (goSearch s.keys.length (fun i => decide (s.hashfunc key ≤ s.keys.getD i 0))) 0 := by
          have := hgs.2.2 _ le_rfl hlt
          simpa using this
        have hf2 : ¬ (s.hashfunc key ≤ s.keys.getD
            (goSearch s.keys.length (fun i => decide (s.hashfunc key ≤ s.keys.getD i 0))) 0) := by
          have := hfi.2.1 _ h
          simpa using this
        exact hf2 hf1
      · exact h
      · exfalso
        have hlt : s.keys.findIdx (fun x => decide (s.hashfunc key ≤ x)) < s.keys.length := by
          have := hgs.1
          omega
        have hf1 : s.hashfunc key ≤ s.keys.getD
            (s.keys.findIdx (fun x => decide (s.hashfunc key ≤ x))) 0 := by
          have := hfi.2.2 hlt
          simpa using this
        have hf2 : ¬ (s.hashfunc key ≤ s.keys.getD
            (s.keys.findIdx (fun x => decide (s.hashfunc key ≤ x))) 0) := by
          have := hgs.2.1 _ h
          simpa using this
        exact hf2 hf1
    simp only [ConsistHash.Get, ConsistHash.specGet, if_neg hn]
    rw [heq]
    by_cases hr : s.keys.findIdx (fun x => decide (s.hashfunc key ≤ x)) = s.keys.length
    · rw [if_pos hr, hr, Nat.mod_self]
    · have hlt : s.keys.findIdx (fun x => decide (s.hashfunc key ≤ x)) < s.keys.length := by
        have := hfi.1
        omega
      rw [if_neg hr, Nat.mod_eq_of_lt hlt]

/-- Witness for C3 at a concrete input. -/
theorem c3_ring_get_spec_witness :
    (((ConsistHash.New 2 (fun str => str.length)).Add ["n"]).keys).Sorted (· ≤ ·) ∧
    ((ConsistHash.New 2 (fun str => str.length)).Add ["n"]).Get "x" =
      ((ConsistHash.New 2 (fun str => str.length)).Add ["n"]).specGet "x" :=
  ⟨by decide, c3_ring_get_spec ((ConsistHash.New 2 (fun str => str.length)).Add ["n"]) "x"
    (by decide)⟩

/-! ## Lemmas: ring removal (C10, C4) -/

theorem sorted_getD_mono (l : List Nat) (hs : l.Sorted (· ≤ ·)) (a b : Nat)
    (hab : a ≤ b) (hb : b < l.length) : l.getD a 0 ≤ l.getD b 0 := by
  have ha : a < l.length := by omega
  rw [List.getD_eq_getElem l 0 ha, List.getD_eq_getElem l 0 hb]
  rcases Nat.eq_or_lt_of_le hab with rfl | hab2
  · exact le_rfl
  · exact List.pairwise_iff_getElem.mp hs a b ha hb hab2

/-- Deleting at the index of the first occurrence of `v` (all earlier
entries differ from `v`) by `take r ++ drop (r+1)` is `List.erase v`. -/
theorem take_drop_erase (v : Nat) :
    ∀ (l : List Nat) (r : Nat), r < l.length →
      (∀ k, k < r → l.getD k 0 ≠ v) → l.getD r 0 = v →
      l.take r ++ l.drop (r + 1) = l.erase v
  | [], r => by intro hr; simp at hr
  | a :: t, 0 => by
      intro hr hlow hv
      rw [List.getD_cons_zero] at hv
      rw [List.erase_cons, if_pos (by simpa using hv)]
      simp
  | a :: t, r + 1 => by
      intro hr hlow hv
      have ha : ¬ ((a == v) = true) := by
        have := hlow 0 (by omega)
        rw [List.getD_cons_zero] at this
        simpa using this
      have ih := take_drop_erase v t r (by simpa using hr)
        (fun k hk => by
          have := hlow (k + 1) (by omega)
          rwa [List.getD_cons_succ] at this)
        (by rwa [List.getD_cons_succ] at hv)
      rw [List.erase_cons, if_neg ha, List.take_succ_cons, List.drop_succ_cons,
        List.cons_append, ih]

/-- On a sorted array containing `v`, `sort.SearchInts` lands strictly in
bounds on the first occurrence of `v`, and the Go slice deletion removes
exactly that occurrence. -/
theorem goSearch_found (l : List Nat) (hs : l.Sorted (· ≤ ·)) (v : Nat) (hv : v ∈ l) :
    goSearch l.length (fun i => decide (v ≤ l.getD i 0)) < l.length ∧
    l.getD (goSearch l.length (fun i => decide (v ≤ l.getD i 0))) 0 = v ∧
    l.take (goSearch l.length (fun i => decide (v ≤ l.getD i 0))) ++
      l.drop (goSearch l.length (fun i => decide (v ≤ l.getD i 0)) + 1) = l.erase v := by
  have hmono := sorted_pred_mono l hs v
  have hgs := goSearch_spec l.length (fun i => decide (v ≤ l.getD i 0)) hmono
  obtain ⟨⟨p, hp⟩, hpe⟩ := List.mem_iff_get.mp hv
  have hgetp : l.getD p 0 = v := by
    rw [List.getD_eq_getElem l 0 hp]
    simpa using hpe
  have hrp : goSearch l.length (fun i => decide (v ≤ l.getD i 0)) ≤ p := by
    by_contra hc
    push_neg at hc
    have hf := hgs.2.1 p hc
    simp only [decide_eq_false_iff_not] at hf
    rw [hgetp] at hf
    exact hf le_rfl
  have hrlt : goSearch l.length (fun i => decide (v ≤ l.getD i 0)) < l.length := by omega
  have hfr : v ≤ l.getD (goSearch l.length (fun i => decide (v ≤ l.getD i 0))) 0 := by
    have := hgs.2.2 _ le_rfl hrlt
    simpa using this
  have hle : l.getD (goSearch l.length (fun i => decide (v ≤ l.getD i 0))) 0 ≤ l.getD p 0 :=
    sorted_getD_mono l hs _ p hrp hp
  have hgr : l.getD (goSearch l.length (fun i => decide (v ≤ l.getD i 0))) 0 = v := by
    rw [hgetp] at hle
    omega
  refine ⟨hrlt, hgr, take_drop_erase v l _ hrlt ?_ hgr⟩
  intro k hk
  have hlow := hgs.2.1 k hk
  simp only [decide_eq_false_iff_not] at hlow
  omega

/-- On a sorted array containing the hash, one `Remove` iteration succeeds
and removes exactly the first occurrence and the map entry. -/
theorem ConsistHash.removeStep_found (s : ConsistHash) (v : Nat)
    (hs : s.keys.Sorted (· ≤ ·)) (hv : v ∈ s.keys) :
    s.removeStep v =
      some
        { s with
          keys := s.keys.erase v,
          hashMap := fun w => if w = v then none else s.hashMap w } := by
  obtain ⟨hlt, hget, herase⟩ := goSearch_found s.keys hs v hv
  rw [ConsistHash.removeStep, if_pos (by omega)]
  rw [herase]

/-- One `Remove` iteration preserves the hash function and the replica
count. -/
theorem ConsistHash.removeStep_frame (s s2 : ConsistHash) (v : Nat)
    (h : s.removeStep v = some s2) : s2.hashfunc = s.hashfunc ∧ s2.replicas = s.replicas := by
  unfold ConsistHash.removeStep at h
  split at h
  · simp only [Option.some.injEq] at h
    rw [← h]
    exact ⟨rfl, rfl⟩
  · exact absurd h (by simp)

/-- The `Remove` loop recomputes each hash from the current state, but the
hash function never changes, so it equals the fold of `removeStep` over the
virtual hashes computed up front. -/
theorem remove_fold_hash_inv (key : String) :
    ∀ (idxs : List Nat) (s : ConsistHash),
      idxs.foldlM (fun t i => ConsistHash.removeStep t (t.hashfunc (toString i ++ key))) s =
        (idxs.map (fun i => s.hashfunc (toString i ++ key))).foldlM ConsistHash.removeStep s
  | [], s => by simp
  | i :: t, s => by
      rw [List.map_cons, List.foldlM_cons, List.foldlM_cons]
      cases hstep : s.removeStep (s.hashfunc (toString i ++ key)) with
      | none => simp
      | some s1 =>
          simp only [Option.bind_eq_bind, Option.some_bind]
          have hhf := (ConsistHash.removeStep_frame s s1 _ hstep).1
          rw [remove_fold_hash_inv key t s1, hhf]

/-- The fold of `removeStep` over a list of hashes whose multiset is
contained in the sorted array: it succeeds, and the result is the array
minus those hashes and the map minus those keys. -/
theorem removeHashes_spec :
    ∀ (hvs : List Nat) (s : ConsistHash),
      s.keys.Sorted (· ≤ ·) →
      (∀ v, hvs.count v ≤ s.keys.count v) →
      ∃ s2, hvs.foldlM ConsistHash.removeStep s = some s2 ∧
        s2.hashfunc = s.hashfunc ∧ s2.replicas = s.replicas ∧
        s2.keys.Sorted (· ≤ ·) ∧
        (∀ v, s2.keys.count v = s.keys.count v - hvs.count v) ∧
        (∀ v, s2.hashMap v = if v ∈ hvs then none else s.hashMap v)
  | [], s => by
      intro hs hc
      exact ⟨s, by simp, rfl, rfl, hs, by intro v; simp, by intro v; simp⟩
  | h0 :: t, s => by
      intro hs hc
      have hmem : h0 ∈ s.keys := by
        have h1 := hc h0
        rw [List.count_cons] at h1
        simp at h1
        exact List.count_pos_iff.mp (by omega)
      have hstep := ConsistHash.removeStep_found s h0 hs hmem
      have hccond : ∀ v, t.count v ≤ (s.keys.erase h0).count v := by
        intro v
        have h1 := hc v
        rw [List.count_cons] at h1
        rw [List.count_erase]
        by_cases hveq : v = h0
        · subst hveq
          simp at h1 ⊢
          omega
        · have hne2 : ¬ ((h0 == v) = true) := by
            simp only [beq_iff_eq]
            exact fun hx => hveq hx.symm
          rw [if_neg hne2] at h1
          rw [if_neg hne2]
          omega
      obtain ⟨s2, hrun, hhf, hrep, hsort, hcnt, hmap⟩ :=
        removeHashes_spec t
          { s with keys := s.keys.erase h0,
                   hashMap := fun w => if w = h0 then none else s.hashMap w }
          (hs.sublist (List.erase_sublist _ _)) hccond
      dsimp only at hhf hrep hcnt hmap
      refine ⟨s2, ?_, hhf, hrep, hsort, ?_, ?_⟩
      · rw [List.foldlM_cons, hstep]
        simpa using hrun
      · intro v
        have h1 := hcnt v
        rw [List.count_erase] at h1
        rw [List.count_cons]
        by_cases hveq : v = h0
        · subst hveq
          simp at h1 ⊢
          omega
        · have hne2 : ¬ ((h0 == v) = true) := by
            simp only [beq_iff_eq]
            exact fun hx => hveq hx.symm
          rw [if_neg hne2] at h1
          rw [if_neg hne2]
          omega
      · intro v
        have h1 := hmap v
        by_cases hvt : v ∈ t
        · rw [if_pos hvt] at h1
          rw [if_pos (List.mem_cons_of_mem _ hvt)]
          exact h1
        · rw [if_neg hvt] at h1
          by_cases hveq : v = h0
          · subst hveq
            rw [if_pos (List.mem_cons_self _ _)]
            rwa [if_pos rfl] at h1
          · rw [if_neg (by simp [List.mem_cons, hveq, hvt] : ¬ v ∈ h0 :: t)]
            rwa [if_neg hveq] at h1

/-- C10 counterexample.  On the empty ring (a fresh `New`), `Remove` of any
name computes `SearchInts` index `0 = len(keys)` and the re-slice
`keys[1:]` is out of bounds: the Go code panics, modelled as `none`, so
`Remove` is not in-bounds for every ring state and name. -/
theorem c10_counterexample :
    (ConsistHash.New 1 (fun str => str.length)).Remove "a" = none := rfl

/-- C10 (amended): `Remove(name)` stays in bounds (no panic) on a ring
state with a sorted point array, provided the multiset of `name`'s virtual
hashes is contained in the array — as is the case when `name` was added on
a collision-free ring and not yet removed.  Without that containment the
ordered search can land at the array length and the deletion re-slice is
out of bounds. -/
theorem c10_remove_inbounds (s : ConsistHash) (name : String)
    (hs : s.keys.Sorted (· ≤ ·))
    (hcount : ∀ v ∈ s.virtualHashes name, (s.virtualHashes name).count v ≤ s.keys.count v) :
    (s.Remove name).isSome = true := by
  have hc : ∀ v, (s.virtualHashes name).count v ≤ s.keys.count v := by
    intro v
    by_cases hv : v ∈ s.virtualHashes name
    · exact hcount v hv
    · rw [List.count_eq_zero_of_not_mem hv]
      exact Nat.zero_le _
  obtain ⟨s2, hrun, -⟩ := removeHashes_spec (s.virtualHashes name) s hs hc
  rw [ConsistHash.Remove, remove_fold_hash_inv]
  rw [ConsistHash.virtualHashes] at hrun
  rw [hrun]
  rfl

/-- Witness for C10 (amended) at a concrete input. -/
theorem c10_remove_inbounds_witness :
    ((((ConsistHash.New 1 (fun str => str.length)).Add ["ab"]).keys).Sorted (· ≤ ·)) ∧
    ((((ConsistHash.New 1 (fun str => str.length)).Add ["ab"]).Remove "ab").isSome = true) :=
  ⟨by decide,
    c10_remove_inbounds ((ConsistHash.New 1 (fun str => str.length)).Add ["ab"]) "ab"
      (by decide) (by decide)⟩

/-- The map updates of `Add` for one name: every virtual hash now maps to
the name, other keys are untouched (all writes store the same name, so
write order is immaterial). -/
theorem addOne_hashMap_spec (name : String) :
    ∀ (hvs : List Nat) (m : Nat → Option String) (v : Nat),
      (hvs.foldl (fun m2 hv => fun w => if w = hv then some name else m2 w) m) v =
        if v ∈ hvs then some name else m v
  | [], m, v => by simp
  | h0 :: t, m, v => by
      rw [List.foldl_cons]
      rw [addOne_hashMap_spec name t _ v]
      by_cases hvt : v ∈ t
      · rw [if_pos hvt, if_pos (List.mem_cons_of_mem _ hvt)]
      · rw [if_neg hvt]
        by_cases hveq : v = h0
        · subst hveq
          rw [if_pos (List.mem_cons_self _ _), if_pos rfl]
        · rw [if_neg hveq, if_neg (by simp [List.mem_cons, hveq, hvt])]

/-- C4 counterexample.  Ring with one replica and a hash collision:
`hash("0a") = hash("0b") = 5`.  Starting from the ring containing node
`"a"` (array `[5]`, map `5 ↦ "a"`), the name `"b"` is not in the ring, yet
`Add("b")` overwrites the map entry `5 ↦ "a"` with `5 ↦ "b"` and
`Remove("b")` then deletes the entry outright, so the pre-Add state (where
the map still answered `"a"` at `5`) is not restored. -/
theorem c4_counterexample :
    ((((ConsistHash.New 1 (fun str => if str = "0a" ∨ str = "0b" then 5 else 0)).Add
          ["a"]).Add ["b"]).Remove "b") ≠
      some ((ConsistHash.New 1 (fun str => if str = "0a" ∨ str = "0b" then 5 else 0)).Add
        ["a"]) := by
  intro h
  have h2 : (((((ConsistHash.New 1
        (fun str => if str = "0a" ∨ str = "0b" then 5 else 0)).Add ["a"]).Add
          ["b"]).Remove "b").map (fun t => t.hashMap 5)) = some none := rfl
  have h3 : ((some ((ConsistHash.New 1
        (fun str => if str = "0a" ∨ str = "0b" then 5 else 0)).Add ["a"])).map
          (fun t => t.hashMap 5)) = some (some "a") := rfl
  rw [h] at h2
  rw [h2] at h3
  simp at h3

/-- C4 (amended): `Add(X)` followed by `Remove(X)` restores the ring state
exactly, on every ring state with a sorted point array, provided `X`'s
virtual hashes collide with nothing already present (they are absent from
the point array and from the map).  Under a hash collision with an existing
point, `Add` then `Remove` loses the colliding map entry. -/
theorem c4_add_remove_roundtrip (s : ConsistHash) (name : String)
    (hs : s.keys.Sorted (· ≤ ·))
    (hfresh : ∀ v ∈ s.virtualHashes name, ¬ v ∈ s.keys ∧ s.hashMap v = none) :
    (s.Add [name]).Remove name = some s := by
  have hkeys1 : (s.Add [name]).keys =
      (s.keys ++ s.virtualHashes name).insertionSort (· ≤ ·) := rfl
  have hsort1 : (s.Add [name]).keys.Sorted (· ≤ ·) := List.sorted_insertionSort _ _
  have hperm : List.Perm ((s.Add [name]).keys) (s.keys ++ s.virtualHashes name) := by
    rw [hkeys1]
    exact List.perm_insertionSort _ _
  have hcount1 : ∀ v, (s.Add [name]).keys.count v =
      s.keys.count v + (s.virtualHashes name).count v := by
    intro v
    rw [hperm.count_eq, List.count_append]
  have hvh : (s.Add [name]).virtualHashes name = s.virtualHashes name := rfl
  have hcontain : ∀ v, ((s.Add [name]).virtualHashes name).count v ≤
      (s.Add [name]).keys.count v := by
    intro v
    rw [hvh, hcount1]
    omega
  obtain ⟨s2, hrun, hhf, hrep, hsort2, hcnt2, hmap2⟩ :=
    removeHashes_spec ((s.Add [name]).virtualHashes name) (s.Add [name]) hsort1 hcontain
  have hrem : (s.Add [name]).Remove name = some s2 := by
    rw [ConsistHash.Remove, remove_fold_hash_inv]
    rw [ConsistHash.virtualHashes] at hrun
    exact hrun
  rw [hrem]
  congr 1
  ext1
  · rw [hhf]
    rfl
  · rw [hrep]
    rfl
  · apply List.eq_of_perm_of_sorted _ hsort2 hs
    rw [List.perm_iff_count]
    intro v
    rw [hcnt2 v, hvh, hcount1 v]
    omega
  · funext v
    rw [hmap2 v, hvh]
    by_cases hv : v ∈ s.virtualHashes name
    · rw [if_pos hv, (hfresh v hv).2]
    · rw [if_neg hv]
      have hadd : (s.Add [name]).hashMap =
          (s.virtualHashes name).foldl
            (fun m2 hv => fun w => if w = hv then some name else m2 w) s.hashMap := rfl
      rw [hadd, addOne_hashMap_spec name (s.virtualHashes name) s.hashMap v, if_neg hv]

/-- Witness for C4 (amended) at a concrete input. -/
theorem c4_add_remove_roundtrip_witness :
    ((((ConsistHash.New 1 (fun str => str.length)).Add ["ab"]).keys).Sorted (· ≤ ·)) ∧
    ((((ConsistHash.New 1 (fun str => str.length)).Add ["ab"]).Add ["xyz"]).Remove "xyz" =
      some ((ConsistHash.New 1 (fun str => str.length)).Add ["ab"])) :=
  ⟨by decide,
    c4_add_remove_roundtrip ((ConsistHash.New 1 (fun str => str.length)).Add ["ab"]) "xyz"
      (by decide) (by decide)⟩

/-! ## Lemmas: single-flight coalescing (C2) -/

theorem get?_set_self {α : Type} :
    ∀ (l : List α) (t : Nat) (a : α), t < l.length → (l.set t a).get? t = some a
  | [], t, a => by simp
  | x :: xs, 0, a => by intro h; rfl
  | x :: xs, t + 1, a => by
      intro h
      show (xs.set t a).get? t = some a
      exact get?_set_self xs t a (by simpa using h)

theorem get?_set_ne {α : Type} :
    ∀ (l : List α) (t u : Nat) (a : α), t ≠ u → (l.set t a).get? u = l.get? u
  | [], t, u, a => by simp
  | x :: xs, 0, 0, a => by intro h; exact absurd rfl h
  | x :: xs, 0, u + 1, a => by intro h; rfl
  | x :: xs, t + 1, 0, a => by intro h; rfl
  | x :: xs, t + 1, u + 1, a => by
      intro h
      show (xs.set t a).get? u = xs.get? u
      exact get?_set_ne xs t u a (by omega)

theorem getD_set_self {α : Type} (d : α) :
    ∀ (l : List α) (e : Nat) (x : α), e < l.length → (l.set e x).getD e d = x
  | [], e, x => by simp
  | a :: tl, 0, x => by intro h; rfl
  | a :: tl, e + 1, x => by
      intro h
      show (tl.set e x).getD e d = x
      exact getD_set_self d tl e x (by simpa using h)

theorem getD_set_ne {α : Type} (d : α) :
    ∀ (l : List α) (e k : Nat) (x : α), e ≠ k → (l.set e x).getD k d = l.getD k d
  | [], e, k, x => by simp
  | a :: tl, 0, 0, x => by intro h; exact absurd rfl h
  | a :: tl, 0, k + 1, x => by intro h; rfl
  | a :: tl, e + 1, 0, x => by intro h; rfl
  | a :: tl, e + 1, k + 1, x => by
      intro h
      show (tl.set e x).getD k d = tl.getD k d
      exact getD_set_ne d tl e k x (by omega)

theorem getD_append_self {α : Type} (d : α) :
    ∀ (l : List α) (x : α), (l ++ [x]).getD l.length d = x
  | [], x => rfl
  | a :: tl, x => by
      show (tl ++ [x]).getD tl.length d = x
      exact getD_append_self d tl x

theorem getD_append_lt {α : Type} (d : α) :
    ∀ (l : List α) (x : α) (k : Nat), k < l.length → (l ++ [x]).getD k d = l.getD k d
  | [], x, k => by simp
  | a :: tl, x, 0 => by intro h; rfl
  | a :: tl, x, k + 1 => by
      intro h
      show (tl ++ [x]).getD k d = tl.getD k d
      exact getD_append_lt d tl x k (by simpa using h)

theorem countP_set_some :
    ∀ (l : List (Option Nat)) (e : Nat) (x : Nat), e < l.length → l.getD e none = none →
      (l.set e (some x)).countP (fun r => r.isSome) = l.countP (fun r => r.isSome) + 1
  | [], e, x => by simp
  | a :: tl, 0, x => by
      intro h hn
      rw [List.getD_cons_zero] at hn
      subst hn
      show (some x :: tl).countP (fun r => r.isSome) =
        ((none : Option Nat) :: tl).countP (fun r => r.isSome) + 1
      simp [List.countP_cons]
  | a :: tl, e + 1, x => by
      intro h hn
      rw [List.getD_cons_succ] at hn
      have ih := countP_set_some tl e x (by simpa using h) hn
      show (a :: tl.set e (some x)).countP (fun r => r.isSome) =
        (a :: tl).countP (fun r => r.isSome) + 1
      rw [List.countP_cons, List.countP_cons, ih]
      ring

namespace SF

/-- Every step preserves the number of callers. -/
theorem step_threads_length (s : State) (t : Nat) :
    (step s t).threads.length = s.threads.length := by
  cases hpc : s.threads.get? t with
  | none => simp only [step, hpc]
  | some pc =>
      cases pc with
      | start =>
          cases hen : s.entry with
          | some e => simp only [step, hpc, hen, List.length_set]
          | none => simp only [step, hpc, hen, List.length_set]
      | leader e => simp only [step, hpc, List.length_set]
      | leaderDone e => simp only [step, hpc, List.length_set]
      | follower e =>
          cases hr : s.results.getD e none with
          | some v => simp only [step, hpc, hr, List.length_set]
          | none => simp only [step, hpc, hr]
      | done v => simp only [step, hpc]

theorem run_threads_length :
    ∀ (sched : List Nat) (s : State), (run sched s).threads.length = s.threads.length
  | [], s => rfl
  | t :: sched, s => by
      show (run sched (step s t)).threads.length = s.threads.length
      rw [run_threads_length sched (step s t), step_threads_length]

/-- The invariant holds initially. -/
theorem Inv_init (n : Nat) : Inv (init n) := by
  have hstart : ∀ t pc, (init n).threads.get? t = some pc → pc = PC.start := by
    intro t pc h
    have hmem := List.get?_mem h
    exact List.eq_of_mem_replicate hmem
  constructor
  · intro e h
    simp [init] at h
  · intro t e h
    rcases h with h | h <;> exact absurd (hstart t _ h) (by simp)
  · intro t1 t2 e1 e2 h1 h2
    rcases h1 with h | h <;> exact absurd (hstart t1 _ h) (by simp)
  · intro e h
    simp [init] at h
  · intro t e h
    exact absurd (hstart t _ h) (by simp)
  · intro t e h
    exact absurd (hstart t _ h) (by simp)
  · intro t e h
    exact absurd (hstart t _ h) (by simp)
  · intro t v h
    exact absurd (hstart t _ h) (by simp)
  · intro _
    exact ⟨by simp [init], fun _ => by simp [init]⟩
  · intro h
    simp [init] at h
  · intro _
    simp [init]
  · rfl

end SF

theorem get?_set_cases {α : Type} (l : List α) (t : Nat) (a : α) (ht : t < l.length)
    (u : Nat) (b : α) (h : (l.set t a).get? u = some b) :
    (u = t ∧ b = a) ∨ (u ≠ t ∧ l.get? u = some b) := by
  by_cases htt : u = t
  · subst htt
    rw [get?_set_self _ _ _ ht] at h
    exact Or.inl ⟨rfl, (Option.some.inj h).symm⟩
  · right
    refine ⟨htt, ?_⟩
    rwa [get?_set_ne _ _ _ _ (fun hx => htt hx.symm)] at h

namespace SF

/-- Setting a caller to a non-leader control point cannot create a leader. -/
theorem leaderish_of_set {l : List PC} {t : Nat} {a : PC} (ht : t < l.length)
    (ha : ∀ e, a ≠ PC.leader e ∧ a ≠ PC.leaderDone e) (tx ex : Nat)
    (hx : (l.set t a).get? tx = some (PC.leader ex) ∨
      (l.set t a).get? tx = some (PC.leaderDone ex)) :
    l.get? tx = some (PC.leader ex) ∨ l.get? tx = some (PC.leaderDone ex) := by
  rcases hx with hx | hx
  · rcases get?_set_cases l t a ht tx _ hx with ⟨-, hbad⟩ | ⟨-, hold⟩
    · exact absurd hbad.symm (ha ex).1
    · exact Or.inl hold
  · rcases get?_set_cases l t a ht tx _ hx with ⟨-, hbad⟩ | ⟨-, hold⟩
    · exact absurd hbad.symm (ha ex).2
    · exact Or.inr hold

/-- Every step of the single-flight model preserves the invariant. -/
theorem Inv_step (s : State) (t : Nat) (h : Inv s) : Inv (step s t) := by
  cases hpc : s.threads.get? t with
  | none => simpa only [step, hpc] using h
  | some pc =>
      have ht : t < s.threads.length := by
        rcases List.get?_eq_some.mp hpc with ⟨hlt, -⟩
        exact hlt
      cases pc with
      | start =>
          cases hen : s.entry with
          | some e0 =>
              simp only [step, hpc, hen]
              rw [← hen]
              constructor
              · intro e he
                exact h.i1 e he
              · intro t2 e2 h2
                rcases h2 with h2 | h2
                · rcases get?_set_cases _ _ _ ht _ _ h2 with ⟨-, hbad⟩ | ⟨-, hold⟩
                  · exact PC.noConfusion hbad
                  · exact h.i2 t2 e2 (Or.inl hold)
                · rcases get?_set_cases _ _ _ ht _ _ h2 with ⟨-, hbad⟩ | ⟨-, hold⟩
                  · exact PC.noConfusion hbad
                  · exact h.i2 t2 e2 (Or.inr hold)
              · intro t1 t2 e1 e2 h1 h2
                exact h.i3 t1 t2 e1 e2
                  (leaderish_of_set ht (fun e2x => ⟨by simp, by simp⟩) _ _ h1)
                  (leaderish_of_set ht (fun e2x => ⟨by simp, by simp⟩) _ _ h2)
              · intro e he
                obtain ⟨tx, hx⟩ := h.i4 e he
                have htx : tx ≠ t := by
                  rintro rfl
                  rcases hx with hx | hx <;> (rw [hpc] at hx; exact PC.noConfusion (Option.some.inj hx))
                refine ⟨tx, ?_⟩
                rwa [get?_set_ne _ _ _ _ (Ne.symm htx)]
              · intro t2 e2 h2
                rcases get?_set_cases _ _ _ ht _ _ h2 with ⟨-, hbad⟩ | ⟨-, hold⟩
                · exact PC.noConfusion hbad
                · exact h.i5a t2 e2 hold
              · intro t2 e2 h2
                rcases get?_set_cases _ _ _ ht _ _ h2 with ⟨-, hbad⟩ | ⟨-, hold⟩
                · exact PC.noConfusion hbad
                · exact h.i5b t2 e2 hold
              · intro t2 e2 h2
                rcases get?_set_cases _ _ _ ht _ _ h2 with ⟨-, hbad⟩ | ⟨-, hold⟩
                · have he2 : e2 = e0 := PC.follower.inj hbad
                  rw [he2]
                  exact ⟨h.i1 e0 hen, Or.inl hen⟩
                · exact h.i6 t2 e2 hold
              · intro t2 v h2
                rcases get?_set_cases _ _ _ ht _ _ h2 with ⟨-, hbad⟩ | ⟨-, hold⟩
                · exact PC.noConfusion hbad
                · exact h.i7 t2 v hold
              · exact h.i10
              · intro hdel hviol
                exact absurd hpc (h.i11 hdel hviol t)
              · exact h.i12
              · exact h.i13
          | none =>
              simp only [step, hpc, hen]
              have hnoleadOld : ∀ tx ex,
                  (s.threads.get? tx = some (PC.leader ex) ∨
                    s.threads.get? tx = some (PC.leaderDone ex)) → False := by
                intro tx ex hx
                have := h.i2 tx ex hx
                rw [hen] at this
                exact Option.noConfusion this
              have hti : ∀ tx ex,
                  ((s.threads.set t (PC.leader s.results.length)).get? tx =
                      some (PC.leader ex) ∨
                    (s.threads.set t (PC.leader s.results.length)).get? tx =
                      some (PC.leaderDone ex)) → tx = t := by
                intro tx ex hx
                rcases hx with hx | hx <;>
                  rcases get?_set_cases _ _ _ ht _ _ hx with ⟨h1, -⟩ | ⟨-, hold⟩
                · exact h1
                · exact absurd (Or.inl hold) (fun hc => hnoleadOld tx ex hc)
                · exact h1
                · exact absurd (Or.inr hold) (fun hc => hnoleadOld tx ex hc)
              constructor
              · intro e he
                have he2 : s.results.length = e := Option.some.inj he
                rw [List.length_append, ← he2]
                simp
              · intro t2 e2 h2
                have ht2 := hti t2 e2 h2
                subst ht2
                rcases h2 with h2 | h2
                · rw [get?_set_self _ _ _ ht] at h2
                  have he2 := PC.leader.inj (Option.some.inj h2)
                  rw [he2]
                · rw [get?_set_self _ _ _ ht] at h2
                  exact PC.noConfusion (Option.some.inj h2)
              · intro t1 t2 e1 e2 h1 h2
                rw [hti t1 e1 h1, hti t2 e2 h2]
              · intro e he
                have he2 : s.results.length = e := Option.some.inj he
                refine ⟨t, Or.inl ?_⟩
                rw [get?_set_self _ _ _ ht, he2]
              · intro t2 e2 h2
                rcases get?_set_cases _ _ _ ht _ _ h2 with ⟨-, hbad⟩ | ⟨-, hold⟩
                · have he2 : e2 = s.results.length := PC.leader.inj hbad
                  subst he2
                  exact getD_append_self none s.results none
                · exact absurd (Or.inl hold) (fun hc => hnoleadOld t2 e2 hc)
              · intro t2 e2 h2
                rcases get?_set_cases _ _ _ ht _ _ h2 with ⟨-, hbad⟩ | ⟨-, hold⟩
                · exact PC.noConfusion hbad
                · exact absurd (Or.inr hold) (fun hc => hnoleadOld t2 e2 hc)
              · intro t2 e2 h2
                rcases get?_set_cases _ _ _ ht _ _ h2 with ⟨-, hbad⟩ | ⟨-, hold⟩
                · exact PC.noConfusion hbad
                · obtain ⟨hlt2, hdisj⟩ := h.i6 t2 e2 hold
                  refine ⟨by rw [List.length_append]; omega, ?_⟩
                  rcases hdisj with hd | hd
                  · rw [hen] at hd
                    exact Option.noConfusion hd
                  · right
                    rwa [getD_append_lt none s.results none e2 hlt2]
              · intro t2 v h2
                rcases get?_set_cases _ _ _ ht _ _ h2 with ⟨-, hbad⟩ | ⟨-, hold⟩
                · exact PC.noConfusion hbad
                · obtain ⟨e3, he3, hv3⟩ := h.i7 t2 v hold
                  refine ⟨e3, by rw [List.length_append]; omega, ?_⟩
                  rwa [getD_append_lt none s.results none e3 he3]
              · intro hdel
                obtain ⟨-, hl0⟩ := h.i10 hdel
                have h0 := hl0 hen
                refine ⟨by rw [List.length_append, h0]; simp, ?_⟩
                intro hcontra
                exact Option.noConfusion hcontra
              · intro hdel hviol
                exact absurd hpc (h.i11 hdel hviol t)
              · intro hviol
                cases hdel : s.deleted with
                | false =>
                    have h0 := (h.i10 hdel).2 hen
                    rw [List.length_append, h0]
                    simp
                | true => exact absurd hpc (h.i11 hdel hviol t)
              · rw [List.countP_append]
                have h13 := h.i13
                simp [h13]
      | leader e =>
          simp only [step, hpc]
          have hent : s.entry = some e := h.i2 t e (Or.inl hpc)
          have hlen : e < s.results.length := h.i1 e hent
          have hres : s.results.getD e none = none := h.i5a t e hpc
          have hti : ∀ tx ex,
              ((s.threads.set t (PC.leaderDone e)).get? tx = some (PC.leader ex) ∨
                (s.threads.set t (PC.leaderDone e)).get? tx = some (PC.leaderDone ex)) →
              tx = t := by
            intro tx ex hx
            rcases hx with hx | hx <;>
              rcases get?_set_cases _ _ _ ht _ _ hx with ⟨h1, -⟩ | ⟨hne, hold⟩
            · exact h1
            · exact absurd (h.i3 tx t ex e (Or.inl hold) (Or.inl hpc)) hne
            · exact h1
            · exact absurd (h.i3 tx t ex e (Or.inr hold) (Or.inl hpc)) hne
          constructor
          · intro e2 he2
            rw [List.length_set]
            exact h.i1 e2 he2
          · intro t2 e2 h2
            have ht2 := hti t2 e2 h2
            subst ht2
            rcases h2 with h2 | h2
            · rw [get?_set_self _ _ _ ht] at h2
              exact PC.noConfusion (Option.some.inj h2)
            · rw [get?_set_self _ _ _ ht] at h2
              have he2 := PC.leaderDone.inj (Option.some.inj h2)
              rw [← he2]
              exact hent
          · intro t1 t2 e1 e2 h1 h2
            rw [hti t1 e1 h1, hti t2 e2 h2]
          · intro e2 he2
            have he2e : e2 = e := by
              rw [hent] at he2
              exact (Option.some.inj he2).symm
            subst he2e
            refine ⟨t, Or.inr ?_⟩
            exact get?_set_self _ _ _ ht
          · intro t2 e2 h2
            rcases get?_set_cases _ _ _ ht _ _ h2 with ⟨-, hbad⟩ | ⟨hne, hold⟩
            · exact PC.noConfusion hbad
            · exact absurd (h.i3 t2 t e2 e (Or.inl hold) (Or.inl hpc)) hne
          · intro t2 e2 h2
            rcases get?_set_cases _ _ _ ht _ _ h2 with ⟨-, hbad⟩ | ⟨hne, hold⟩
            · have he2 : e2 = e := PC.leaderDone.inj hbad
              subst he2
              rw [getD_set_self none s.results e2 _ hlen]
              simp
            · exact absurd (h.i3 t2 t e2 e (Or.inr hold) (Or.inl hpc)) hne
          · intro t2 e2 h2
            rcases get?_set_cases _ _ _ ht _ _ h2 with ⟨-, hbad⟩ | ⟨-, hold⟩
            · exact PC.noConfusion hbad
            · obtain ⟨hlt2, hdisj⟩ := h.i6 t2 e2 hold
              refine ⟨by rw [List.length_set]; exact hlt2, ?_⟩
              rcases hdisj with hd | hd
              · exact Or.inl hd
              · right
                by_cases hee : e = e2
                · subst hee
                  exact absurd hres hd
                · rwa [getD_set_ne none s.results e e2 _ hee]
          · intro t2 v h2
            rcases get?_set_cases _ _ _ ht _ _ h2 with ⟨-, hbad⟩ | ⟨-, hold⟩
            · exact PC.noConfusion hbad
            · obtain ⟨e3, he3, hv3⟩ := h.i7 t2 v hold
              refine ⟨e3, by rw [List.length_set]; exact he3, ?_⟩
              by_cases hee : e = e3
              · subst hee
                rw [hres] at hv3
                exact Option.noConfusion hv3
              · rwa [getD_set_ne none s.results e e3 _ hee]
          · intro hdel
            obtain ⟨hl1, hl0⟩ := h.i10 hdel
            refine ⟨by rw [List.length_set]; exact hl1, ?_⟩
            intro hnone
            rw [hent] at hnone
            exact Option.noConfusion hnone
          · intro hdel hviol t2 hc
            rcases get?_set_cases _ _ _ ht _ _ hc with ⟨-, hbad⟩ | ⟨-, hold⟩
            · exact PC.noConfusion hbad
            · exact (h.i11 hdel hviol t2) hold
          · intro hviol
            rw [List.length_set]
            exact h.i12 hviol
          · rw [countP_set_some s.results e s.invocations hlen hres, ← h.i13]
      | leaderDone e =>
          simp only [step, hpc]
          have hent : s.entry = some e := h.i2 t e (Or.inr hpc)
          have hlen : e < s.results.length := h.i1 e hent
          have hres : s.results.getD e none ≠ none := h.i5b t e hpc
          obtain ⟨tok, htok⟩ := Option.ne_none_iff_exists'.mp hres
          have hno : ∀ tx ex,
              ¬ ((s.threads.set t (PC.done ((s.results.getD e none).getD 0))).get? tx =
                  some (PC.leader ex) ∨
                (s.threads.set t (PC.done ((s.results.getD e none).getD 0))).get? tx =
                  some (PC.leaderDone ex)) := by
            intro tx ex hx
            rcases hx with hx | hx <;>
              rcases get?_set_cases _ _ _ ht _ _ hx with ⟨-, hbad⟩ | ⟨hne, hold⟩
            · exact PC.noConfusion hbad
            · exact hne (h.i3 tx t ex e (Or.inl hold) (Or.inr hpc))
            · exact PC.noConfusion hbad
            · exact hne (h.i3 tx t ex e (Or.inr hold) (Or.inr hpc))
          constructor
          · intro e2 he2
            exact Option.noConfusion he2
          · intro t2 e2 h2
            exact absurd h2 (hno t2 e2)
          · intro t1 t2 e1 e2 h1 h2
            exact absurd h1 (hno t1 e1)
          · intro e2 he2
            exact Option.noConfusion he2
          · intro t2 e2 h2
            exact absurd (Or.inl h2) (hno t2 e2)
          · intro t2 e2 h2
            exact absurd (Or.inr h2) (hno t2 e2)
          · intro t2 e2 h2
            rcases get?_set_cases _ _ _ ht _ _ h2 with ⟨-, hbad⟩ | ⟨-, hold⟩
            · exact PC.noConfusion hbad
            · obtain ⟨hlt2, hdisj⟩ := h.i6 t2 e2 hold
              refine ⟨hlt2, ?_⟩
              rcases hdisj with hd | hd
              · right
                have he2 : e2 = e := by
                  rw [hent] at hd
                  exact (Option.some.inj hd).symm
                rw [he2]
                exact hres
              · exact Or.inr hd
          · intro t2 v h2
            rcases get?_set_cases _ _ _ ht _ _ h2 with ⟨-, hbad⟩ | ⟨-, hold⟩
            · have hv : v = (s.results.getD e none).getD 0 := PC.done.inj hbad
              refine ⟨e, hlen, ?_⟩
              rw [hv, htok]
              rfl
            · exact h.i7 t2 v hold
          · intro hdel
            exact Bool.noConfusion hdel
          · intro hdel hviol t2 hc
            rw [Bool.or_eq_false_iff] at hviol
            obtain ⟨hv1, hv2⟩ := hviol
            rcases get?_set_cases _ _ _ ht _ _ hc with ⟨-, hbad⟩ | ⟨-, hold⟩
            · exact PC.noConfusion hbad
            · have hmem := List.get?_mem hold
              rw [List.any_eq_false] at hv2
              exact absurd (by simp : (PC.start == PC.start) = true) (hv2 _ hmem)
          · intro hviol
            rw [Bool.or_eq_false_iff] at hviol
            exact h.i12 hviol.1
          · exact h.i13
      | follower e =>
          cases hr : s.results.getD e none with
          | none => simpa only [step, hpc, hr] using h
          | some v =>
              simp only [step, hpc, hr]
              constructor
              · exact h.i1
              · intro t2 e2 h2
                rcases h2 with h2 | h2
                · rcases get?_set_cases _ _ _ ht _ _ h2 with ⟨-, hbad⟩ | ⟨-, hold⟩
                  · exact PC.noConfusion hbad
                  · exact h.i2 t2 e2 (Or.inl hold)
                · rcases get?_set_cases _ _ _ ht _ _ h2 with ⟨-, hbad⟩ | ⟨-, hold⟩
                  · exact PC.noConfusion hbad
                  · exact h.i2 t2 e2 (Or.inr hold)
              · intro t1 t2 e1 e2 h1 h2
                exact h.i3 t1 t2 e1 e2
                  (leaderish_of_set ht (fun e2x => ⟨by simp, by simp⟩) _ _ h1)
                  (leaderish_of_set ht (fun e2x => ⟨by simp, by simp⟩) _ _ h2)
              · intro e2 he2
                obtain ⟨tx, hx⟩ := h.i4 e2 he2
                have htx : tx ≠ t := by
                  rintro rfl
                  rcases hx with hx | hx <;>
                    (rw [hpc] at hx; exact PC.noConfusion (Option.some.inj hx))
                refine ⟨tx, ?_⟩
                rwa [get?_set_ne _ _ _ _ (Ne.symm htx)]
              · intro t2 e2 h2
                rcases get?_set_cases _ _ _ ht _ _ h2 with ⟨-, hbad⟩ | ⟨-, hold⟩
                · exact PC.noConfusion hbad
                · exact h.i5a t2 e2 hold
              · intro t2 e2 h2
                rcases get?_set_cases _ _ _ ht _ _ h2 with ⟨-, hbad⟩ | ⟨-, hold⟩
                · exact PC.noConfusion hbad
                · exact h.i5b t2 e2 hold
              · intro t2 e2 h2
                rcases get?_set_cases _ _ _ ht _ _ h2 with ⟨-, hbad⟩ | ⟨-, hold⟩
                · exact PC.noConfusion hbad
                · exact h.i6 t2 e2 hold
              · intro t2 v2 h2
                rcases get?_set_cases _ _ _ ht _ _ h2 with ⟨-, hbad⟩ | ⟨-, hold⟩
                · have hv2 : v2 = v := PC.done.inj hbad
                  subst hv2
                  exact ⟨e, (h.i6 t e hpc).1, hr⟩
                · exact h.i7 t2 v2 hold
              · exact h.i10
              · intro hdel hviol t2 hc
                rcases get?_set_cases _ _ _ ht _ _ hc with ⟨-, hbad⟩ | ⟨-, hold⟩
                · exact PC.noConfusion hbad
                · exact (h.i11 hdel hviol t2) hold
              · exact h.i12
              · exact h.i13
      | done v => simpa only [step, hpc] using h

/-- The invariant holds after any run from the initial state. -/
theorem Inv_run : ∀ (sched : List Nat) (s : State), Inv s → Inv (run sched s)
  | [], _ => fun h => h
  | t :: sched, s => fun h => Inv_run sched (step s t) (Inv_step s t h)

end SF

theorem get?_append_self {α : Type} :
    ∀ (l : List α) (x : α), (l ++ [x]).get? l.length = some x
  | [], x => rfl
  | a :: tl, x => by
      show (tl ++ [x]).get? tl.length = some x
      exact get?_append_self tl x

namespace SF

/-- From a state with no in-flight entry, a caller at `start` registers a
fresh entry, becomes its leader, and its next step invokes `work` (one more
invocation): a subsequent `Do` starts a fresh execution. -/
theorem fresh_start_step (s2 : State) (u : Nat) (hen2 : s2.entry = none)
    (hu : s2.threads.get? u = some PC.start) :
    (step s2 u).entry = some s2.results.length ∧
    (step s2 u).threads.get? u = some (PC.leader s2.results.length) ∧
    (step (step s2 u) u).invocations = s2.invocations + 1 := by
  obtain ⟨hu_lt, -⟩ := List.get?_eq_some.mp hu
  have h1 : (step s2 u).threads.get? u = some (PC.leader s2.results.length) := by
    simp only [step, hu, hen2]
    exact get?_set_self _ _ _ hu_lt
  refine ⟨by simp only [step, hu, hen2], h1, ?_⟩
  have h2 : (step s2 u).invocations = s2.invocations := by
    simp only [step, hu, hen2]
  set s3 := step s2 u with hs3
  simp only [step, h1]
  rw [h2]

end SF

/-- C2.  Single-flight coalescing, modelled from the spec (the
`geecache/singleflight` package is not under `src/`): in every interleaved
run of `n` callers of `Do` on one key in which every caller looked up the
in-flight map before any map deletion (`violated = false` — the callers
arrived while the first execution was in flight) and all callers have
returned, `work` was invoked exactly once, all callers returned the same
result, the in-flight map entry is cleared — and a subsequent caller
starts a fresh execution: it registers a new entry as leader and its next
step invokes `work` again. -/
theorem c2_single_flight_coalescing (n : Nat) (sched : List Nat) (hn : 0 < n)
    (hviol : (SF.run sched (SF.init n)).violated = false)
    (hdone : ∀ pc ∈ (SF.run sched (SF.init n)).threads, ∃ v, pc = SF.PC.done v) :
    (SF.run sched (SF.init n)).invocations = 1 ∧
    (∃ v, ∀ pc ∈ (SF.run sched (SF.init n)).threads, pc = SF.PC.done v) ∧
    (SF.run sched (SF.init n)).entry = none ∧
    ((SF.step (SF.run sched (SF.init n)).newCaller
        (SF.run sched (SF.init n)).threads.length).entry =
      some (SF.run sched (SF.init n)).results.length ∧
    (SF.step (SF.step (SF.run sched (SF.init n)).newCaller
        (SF.run sched (SF.init n)).threads.length)
        (SF.run sched (SF.init n)).threads.length).invocations =
      (SF.run sched (SF.init n)).invocations + 1) := by
  have hinv := SF.Inv_run sched (SF.init n) (SF.Inv_init n)
  have hnolead : ∀ tx ex,
      ¬ ((SF.run sched (SF.init n)).threads.get? tx = some (SF.PC.leader ex) ∨
        (SF.run sched (SF.init n)).threads.get? tx = some (SF.PC.leaderDone ex)) := by
    intro tx ex hx
    rcases hx with hx | hx <;>
      obtain ⟨v, hv⟩ := hdone _ (List.get?_mem hx) <;> exact SF.PC.noConfusion hv
  have hent : (SF.run sched (SF.init n)).entry = none := by
    cases he : (SF.run sched (SF.init n)).entry with
    | none => rfl
    | some e =>
        obtain ⟨tx, hx⟩ := hinv.i4 e he
        exact absurd hx (hnolead tx e)
  have hlen1 : (SF.run sched (SF.init n)).results.length ≤ 1 := hinv.i12 hviol
  have hthreads : (SF.run sched (SF.init n)).threads.length = n := by
    rw [SF.run_threads_length]
    simp [SF.init]
  have hne : (SF.run sched (SF.init n)).threads ≠ [] := by
    intro hnil
    rw [hnil] at hthreads
    simp at hthreads
    omega
  obtain ⟨pc0, hpc0⟩ := List.exists_mem_of_ne_nil _ hne
  obtain ⟨v0, hv0⟩ := hdone pc0 hpc0
  obtain ⟨t0, ht0⟩ := List.mem_iff_get?.mp hpc0
  rw [hv0] at ht0
  obtain ⟨e0, he0lt, he0⟩ := hinv.i7 t0 v0 ht0
  have he00 : e0 = 0 := by omega
  subst he00
  have hlen : (SF.run sched (SF.init n)).results.length = 1 := by omega
  have hres : (SF.run sched (SF.init n)).results = [some v0] := by
    cases hres0 : (SF.run sched (SF.init n)).results with
    | nil =>
        rw [hres0] at hlen
        simp at hlen
    | cons r rest =>
        cases rest with
        | nil =>
            rw [hres0] at he0
            rw [List.getD_cons_zero] at he0
            rw [he0]
        | cons r2 rest2 =>
            rw [hres0] at hlen
            simp at hlen
  refine ⟨?_, ⟨v0, ?_⟩, hent, ?_⟩
  · rw [hinv.i13, hres]
    simp [List.countP_cons]
  · intro pc hpc2
    obtain ⟨v2, hv2⟩ := hdone pc hpc2
    obtain ⟨t2, ht2⟩ := List.mem_iff_get?.mp hpc2
    rw [hv2] at ht2
    obtain ⟨e2, he2lt, he2⟩ := hinv.i7 t2 v2 ht2
    have he20 : e2 = 0 := by omega
    subst he20
    rw [he0] at he2
    have hvv : v2 = v0 := (Option.some.inj he2).symm
    rw [hv2, hvv]
  · have hu : ((SF.run sched (SF.init n)).newCaller).threads.get?
        ((SF.run sched (SF.init n)).threads.length) = some SF.PC.start :=
      get?_append_self _ _
    have hen2 : ((SF.run sched (SF.init n)).newCaller).entry = none := hent
    obtain ⟨g1, g2, g3⟩ := SF.fresh_start_step _ _ hen2 hu
    exact ⟨g1, g3⟩

/-- Witness for C2 at a concrete input: two callers, the second arriving
while the first execution is in flight. -/
theorem c2_single_flight_coalescing_witness :
    (0 : Nat) < 2 ∧
    (SF.run [0, 1, 0, 1, 0] (SF.init 2)).violated = false ∧
    ((SF.run [0, 1, 0, 1, 0] (SF.init 2)).invocations = 1 ∧
    (∃ v, ∀ pc ∈ (SF.run [0, 1, 0, 1, 0] (SF.init 2)).threads, pc = SF.PC.done v) ∧
    (SF.run [0, 1, 0, 1, 0] (SF.init 2)).entry = none ∧
    ((SF.step (SF.run [0, 1, 0, 1, 0] (SF.init 2)).newCaller
        (SF.run [0, 1, 0, 1, 0] (SF.init 2)).threads.length).entry =
      some (SF.run [0, 1, 0, 1, 0] (SF.init 2)).results.length ∧
    (SF.step (SF.step (SF.run [0, 1, 0, 1, 0] (SF.init 2)).newCaller
        (SF.run [0, 1, 0, 1, 0] (SF.init 2)).threads.length)
        (SF.run [0, 1, 0, 1, 0] (SF.init 2)).threads.length).invocations =
      (SF.run [0, 1, 0, 1, 0] (SF.init 2)).invocations + 1)) :=
  ⟨by decide, by decide,
    c2_single_flight_coalescing 2 [0, 1, 0, 1, 0] (by decide) (by decide)
      (by
        intro pc hpc
        have hth : (SF.run [0, 1, 0, 1, 0] (SF.init 2)).threads =
            [SF.PC.done 0, SF.PC.done 0] := by decide
        rw [hth] at hpc
        simp at hpc
        exact ⟨0, hpc⟩)⟩

end GeeCache
